import Mathlib

/-!
Verification of the cross-run duplicate-detection and merge engine of the
marketplace-listing automation repository.

The Python source is embedded shallowly:

* Python str values are Lean String values (lists of characters).
* Python float arithmetic on similarity scores is modelled exactly over the
  rationals (all constants appearing in the claims, such as 0.60, 0.20, 10.0
  and the similarity ratios, are exactly representable).
* difflib.SequenceMatcher with isjunk = None (the only configuration the
  repository uses, in ItemCatalog._compute_similarity) is embedded below in
  full, including the autojunk popularity filter and the two non-junk
  extension loops of find_longest_match; with isjunk = None the junk set
  bjunk is empty, so the two junk-only extension loops of the original can
  never fire and are omitted.
* Stateful code (catalog mutation, folder creation, image copying) is
  modelled by explicit state passing; filesystem contents are modelled as
  lists of folder records holding file names.

Definitions follow src/src/item_catalog.py, src/src/listing_generator.py,
src/src/image_organizer.py and src/main.py, keeping the source names where
Lean allows.
-/

set_option maxRecDepth 4000

/-! ### difflib.SequenceMatcher, specialised to isjunk = None

Embeds CPython difflib: __chain_b (b2j with autojunk), find_longest_match,
get_matching_blocks (only the total matched size, which is what ratio needs;
the adjacent-block merge step and the terminating dummy block do not change
the total), ratio.  Sequences are lists of characters. -/

/-- Ascending list of the positions of character c in b
(the index list built for b2j by the setdefault/append loop of __chain_b). -/
def py_positions (b : List Char) (c : Char) : List Nat :=
  (List.range b.length).filter (fun i => b.getD i ' ' == c)

/-- b2j lookup after __chain_b: positions of c in b, except that when
len(b) is at least 200 autojunk removes characters occurring more than
len(b) / 100 + 1 times ("popular" characters); a character absent from b
yields the empty list, matching b2j.get(a[i], nothing). -/
def py_b2j (b : List Char) (c : Char) : List Nat :=
  if 200 ≤ b.length ∧ b.length / 100 + 1 < b.count c then []
  else py_positions b c

/-- One step k = newj2len[j] = j2len.get(j-1, 0) + 1 of the inner loop of
find_longest_match.  Python indexes the previous-row dictionary at j-1,
which for j = 0 is the absent key -1, hence 0. -/
def py_run_len (j2len : Nat → Nat) (j : Nat) : Nat :=
  (if j = 0 then 0 else j2len (j - 1)) + 1

/-- Inner loop of find_longest_match over the position list b2j.get(a[i]):
skip j < blo, break at j >= bhi, record newj2len[j] and update the best
block on strict improvement (k > bestsize, so the first maximum wins).
Returns the new row dictionary and the updated best block
(besti, bestj, bestsize). -/
def py_inner_loop (blo bhi i : Nat) (j2len : Nat → Nat) :
    List Nat → (Nat → Nat) → Nat × Nat × Nat → (Nat → Nat) × (Nat × Nat × Nat)
  | [], newj2len, best => (newj2len, best)
  | j :: js, newj2len, best =>
    if j < blo then py_inner_loop blo bhi i j2len js newj2len best
    else if bhi ≤ j then (newj2len, best)
    else
      let k := py_run_len j2len j
      let newj2len' := fun j' => if j' = j then k else newj2len j'
      let best' := if best.2.2 < k then (i + 1 - k, j + 1 - k, k) else best
      py_inner_loop blo bhi i j2len js newj2len' best'

/-- Outer loop for i in range(alo, ahi) of find_longest_match; steps counts
the remaining iterations (ahi - alo at the initial call), j2len is the
dictionary carried between rows (modelled as a total function, absent keys
mapping to 0). -/
def py_outer_loop (b2j : Char → List Nat) (a : List Char) (blo bhi : Nat) :
    Nat → Nat → (Nat → Nat) → Nat × Nat × Nat → Nat × Nat × Nat
  | _, 0, _, best => best
  | i, steps + 1, j2len, best =>
    let r := py_inner_loop blo bhi i j2len (b2j (a.getD i ' ')) (fun _ => 0) best
    py_outer_loop b2j a blo bhi (i + 1) steps r.1 r.2

/-- First extension loop: while besti > alo and bestj > blo and
a[besti-1] == b[bestj-1], grow the block leftwards (the not-junk test is
vacuous with isjunk = None).  fuel bounds the iteration count; any fuel of
at least besti - alo gives the loop's fixed point. -/
def py_extend_back (a b : List Char) (alo blo : Nat) :
    Nat → Nat × Nat × Nat → Nat × Nat × Nat
  | 0, best => best
  | fuel + 1, (besti, bestj, bestsize) =>
    if alo < besti ∧ blo < bestj ∧
        a.getD (besti - 1) ' ' = b.getD (bestj - 1) ' ' then
      py_extend_back a b alo blo fuel (besti - 1, bestj - 1, bestsize + 1)
    else (besti, bestj, bestsize)

/-- Second extension loop: while besti+bestsize < ahi and
bestj+bestsize < bhi and a[besti+bestsize] == b[bestj+bestsize], grow the
block rightwards. -/
def py_extend_fwd (a b : List Char) (ahi bhi : Nat) :
    Nat → Nat × Nat × Nat → Nat × Nat × Nat
  | 0, best => best
  | fuel + 1, (besti, bestj, bestsize) =>
    if besti + bestsize < ahi ∧ bestj + bestsize < bhi ∧
        a.getD (besti + bestsize) ' ' = b.getD (bestj + bestsize) ' ' then
      py_extend_fwd a b ahi bhi fuel (besti, bestj, bestsize + 1)
    else (besti, bestj, bestsize)

/-- find_longest_match(alo, ahi, blo, bhi) of SequenceMatcher(None, a, b):
dynamic-programming sweep, then the two non-junk extension loops (the two
junk extension loops never fire since bjunk is empty with isjunk = None). -/
def find_longest_match (a b : List Char) (alo ahi blo bhi : Nat) :
    Nat × Nat × Nat :=
  let dp := py_outer_loop (py_b2j b) a blo bhi alo (ahi - alo)
    (fun _ => 0) (alo, blo, 0)
  let ext := py_extend_back a b alo blo dp.1 dp
  py_extend_fwd a b ahi bhi (ahi + bhi) ext

/-- Total size of the matching blocks found by the recursive splitting of
get_matching_blocks on the range (alo, ahi, blo, bhi): the queue-driven
loop explores, for each found block with k > 0, the sub-range to its left
(only when alo < i and blo < j) and to its right (only when i+k < ahi and
j+k < bhi).  The sort, the adjacent-block merge and the final dummy block
of get_matching_blocks leave this total unchanged, and the total is all
ratio consumes.  fuel bounds the recursion depth. -/
def matched_total (a b : List Char) : Nat → Nat → Nat → Nat → Nat → Nat
  | 0, _, _, _, _ => 0
  | fuel + 1, alo, ahi, blo, bhi =>
    let m := find_longest_match a b alo ahi blo bhi
    if m.2.2 = 0 then 0
    else
      m.2.2 +
        (if alo < m.1 ∧ blo < m.2.1 then
          matched_total a b fuel alo m.1 blo m.2.1 else 0) +
        (if m.1 + m.2.2 < ahi ∧ m.2.1 + m.2.2 < bhi then
          matched_total a b fuel (m.1 + m.2.2) ahi (m.2.1 + m.2.2) bhi else 0)

/-- SequenceMatcher(None, a, b).ratio() = 2.0 * M / T where M is the total
matched size and T = len(a) + len(b); _calculate_ratio returns 1.0 when
T = 0.  Python's float division is modelled exactly in the rationals. -/
def ratio (a b : List Char) : ℚ :=
  let m := matched_total a b (a.length + b.length + 1) 0 a.length 0 b.length
  if a.length + b.length = 0 then 1
  else (2 * m : ℚ) / ((a.length + b.length : Nat) : ℚ)

/-! ### Similarity scorer (ItemCatalog._compute_similarity) -/

/-- Python str.lower(), restricted to the ASCII case mapping (all keys and
canonical texts the repository builds are ASCII snake_case / prose). -/
def py_lower (s : String) : String := ⟨s.data.map Char.toLower⟩

/-- Python str.strip() with no argument: remove leading and trailing
whitespace. -/
def py_strip (s : String) : String :=
  ⟨((s.data.dropWhile Char.isWhitespace).reverse.dropWhile
    Char.isWhitespace).reverse⟩

/-- Python s.replace("_", " "): the pattern is a single character, so the
replacement is a character map. -/
def py_replace_underscore_space (s : String) : String :=
  ⟨s.data.map (fun c => if c = '_' then ' ' else c)⟩

/-- Python s.split(sep) for a one-character separator. -/
def py_split_char (sep : Char) : List Char → List (List Char)
  | [] => [[]]
  | c :: rest =>
    match py_split_char sep rest with
    | [] => [[c]]
    | t :: ts => if c = sep then [] :: t :: ts else (c :: t) :: ts

/-- Python sep.join(parts). -/
def py_join (sep : String) : List String → String
  | [] => ""
  | x :: xs => xs.foldl (fun acc y => acc ++ sep ++ y) x

/-- Python key.split("_") on the underlying character list: splitting on
the separator always yields at least one (possibly empty) token; in
particular "".split("_") is [""]. -/
def py_split_underscore : List Char → List (List Char)
  | [] => [[]]
  | c :: rest =>
    match py_split_underscore rest with
    | [] => [[c]]
    | t :: ts => if c = '_' then [] :: t :: ts else (c :: t) :: ts

/-- set(key.split("_")): the token set of a key. -/
def py_token_set (key : String) : Finset String :=
  ((py_split_underscore key.data).map (fun l => (⟨l⟩ : String))).toFinset

/-- ItemCatalog._compute_similarity(text_a, key_a, text_b, key_b):
0.60 * SequenceMatcher text ratio (lower-cased)
+ 0.20 * SequenceMatcher key ratio (lower-cased)
+ 0.20 * token-set Jaccard of the lower-cased keys split on "_"
(the Jaccard branch guard tests both token sets for truthiness). -/
def compute_similarity (text_a key_a text_b key_b : String) : ℚ :=
  let text_score := ratio (py_lower text_a).data (py_lower text_b).data
  let key_score := ratio (py_lower key_a).data (py_lower key_b).data
  let tokens_a := py_token_set (py_lower key_a)
  let tokens_b := py_token_set (py_lower key_b)
  let token_score : ℚ :=
    if 0 < tokens_a.card ∧ 0 < tokens_b.card then
      ((tokens_a ∩ tokens_b).card : ℚ) / ((tokens_a ∪ tokens_b).card : ℚ)
    else 0
  0.60 * text_score + 0.20 * key_score + 0.20 * token_score

/-! ### Item catalog (src/src/item_catalog.py) -/

/-- A persisted catalog entry; the dictionary shape produced by add_entry.
Timestamps are opaque strings (datetime.utcnow().isoformat() values are
passed in as parameters by the embedding). -/
structure CatalogEntry where
  item_key : String
  title : String
  canonical_text : String
  created_at : String
  updated_at : String
  representative_image_names : List String
deriving DecidableEq, Repr

/-- The accumulator loop of find_match: for each entry, compute the score
and update (best_entry, best_score) on strict improvement
(score > best_score, initial best 0.0 with no entry). -/
def find_best (canonical_text item_key : String) :
    List CatalogEntry → Option CatalogEntry × ℚ → Option CatalogEntry × ℚ
  | [], best => best
  | entry :: rest, best =>
    let score := compute_similarity canonical_text item_key
      entry.canonical_text entry.item_key
    if best.2 < score then
      find_best canonical_text item_key rest (some entry, score)
    else
      find_best canonical_text item_key rest best

/-- ItemCatalog.find_match(canonical_text, item_key): returns the best
entry with its score when best_entry is not None and
best_score >= threshold, else None. -/
def find_match (entries : List CatalogEntry) (threshold : ℚ)
    (canonical_text item_key : String) : Option (CatalogEntry × ℚ) :=
  match find_best canonical_text item_key entries (none, 0) with
  | (some entry, score) =>
    if threshold ≤ score then some (entry, score) else none
  | (none, _) => none

/-- list(dict.fromkeys(l)): order-preserving removal of duplicates, the
first occurrence of each element surviving. -/
def fromkeys_dedup (l : List String) : List String :=
  l.foldl (fun acc x => if x ∈ acc then acc else acc ++ [x]) []

/-- ItemCatalog.add_entry(item_key, title, canonical_text, image_names):
scans the entry list; the first entry with the exact item_key is updated
in place (title, canonical_text, updated_at, and, only when image_names is
not None, the image union list(dict.fromkeys(existing + image_names)));
when no entry matches, a fresh entry is appended with
created_at = updated_at = now and image list image_names or []. -/
def add_entry (now item_key title canonical_text : String)
    (image_names : Option (List String)) :
    List CatalogEntry → List CatalogEntry
  | [] =>
    [{ item_key := item_key, title := title, canonical_text := canonical_text,
       created_at := now, updated_at := now,
       representative_image_names := image_names.getD [] }]
  | entry :: rest =>
    if entry.item_key = item_key then
      { entry with
          title := title
          canonical_text := canonical_text
          updated_at := now
          representative_image_names :=
            match image_names with
            | some new => fromkeys_dedup
                (entry.representative_image_names ++ new)
            | none => entry.representative_image_names } :: rest
    else
      entry :: add_entry now item_key title canonical_text image_names rest

/-- ItemCatalog.update_entry_images(item_key, new_image_names): the first
entry with the exact key gets the deduplicated union appended and a fresh
updated_at; if the key is absent nothing changes. -/
def update_entry_images (now item_key : String)
    (new_image_names : List String) :
    List CatalogEntry → List CatalogEntry
  | [] => []
  | entry :: rest =>
    if entry.item_key = item_key then
      { entry with
          representative_image_names :=
            fromkeys_dedup (entry.representative_image_names ++ new_image_names)
          updated_at := now } :: rest
    else
      entry :: update_entry_images now item_key new_image_names rest

/-! ### Listing generator (src/src/listing_generator.py)

Analysis dictionaries are modelled as a fixed-shape record with optional
fields; a missing dictionary key is None.  A price that is present but not
numeric (not an int/float instance, hence skipped by the validity filter of
_merge_analyses) is likewise modelled as none. -/

structure Analysis where
  image_name : Option String := none
  image_path : String := ""
  item_key : Option String := none
  item_name : Option String := none
  description : Option String := none
  price : Option ℚ := none
  condition : Option String := none
  category : Option String := none
deriving DecidableEq, Repr

def DEFAULT_PRICE : ℚ := 10.0

structure MergedListing where
  title : String
  description : String
  price : ℚ
  condition : String
  category : String
  images : String
deriving DecidableEq, Repr

/-- ListingGenerator._empty_listing(). -/
def empty_listing : MergedListing :=
  { title := "Item for Sale", description := "No description available.",
    price := DEFAULT_PRICE, condition := "Good", category := "Other",
    images := "N/A" }

/-- Python max(xs, key=len) over a nonempty list: the first element of
maximal length (max replaces the running maximum only on a strictly
greater key). -/
def py_max_by_len (x : String) (xs : List String) : String :=
  xs.foldl (fun best s => if best.length < s.length then s else best) x

/-- Python substring test: needle in hay. -/
def py_contains (hay needle : String) : Bool :=
  (List.range (hay.data.length + 1)).any
    (fun i => (hay.data.drop i).take needle.data.length == needle.data)

/-- Python max(set(l), key=l.count) over a nonempty list l: an element of l
whose multiplicity in l is maximal.  CPython iterates the set in hash
order, which is unspecified for strings; the embedding iterates the
distinct values in first-occurrence order and keeps the first maximum.
Every property proved about the result (membership and count maximality,
and the value itself whenever the maximum is unique) is independent of the
iteration order. -/
def py_most_common (dflt : String) (l : List String) : String :=
  match fromkeys_dedup l with
  | [] => dflt
  | x :: xs => xs.foldl (fun best s => if l.count best < l.count s then s else best) x

/-- ListingGenerator._build_title(item_name, condition). -/
def build_title (item_name condition : String) : String :=
  let name := py_strip item_name
  if name = "" ∨ py_lower name = "unknown item" then "Item for Sale"
  else if ¬ py_contains (py_lower name) (py_lower condition) then
    name ++ " - " ++ condition ++ " Condition"
  else name

/-- ListingGenerator._merge_analyses(analyses). -/
def merge_analyses (analyses : List Analysis) : MergedListing :=
  match analyses with
  | [] => empty_listing
  | base :: _ =>
    let descs := analyses.map (fun a => a.description.getD "")
    let best_description :=
      match descs with
      | [] => base.description.getD "No description available."
      | d :: ds => py_max_by_len d ds
    let prices := analyses.filterMap (fun a => a.price)
    let avg_price : ℚ :=
      if prices = [] then DEFAULT_PRICE else prices.sum / (prices.length : ℚ)
    let conditions := analyses.map (fun a => a.condition.getD "Good")
    let condition := py_most_common "Good" conditions
    let categories := analyses.map (fun a => a.category.getD "Other")
    let category := py_most_common "Other" categories
    let image_names := analyses.filterMap (fun a =>
      match a.image_name with
      | some s => if s = "" then none else some s
      | none => none)
    let item_name := base.item_name.getD "Item"
    { title := build_title item_name condition
      description :=
        if best_description = "" then "No description available."
        else best_description
      price := avg_price
      condition := condition
      category := category
      images :=
        if image_names = [] then "N/A" else py_join ", " image_names }

/-! ### Image organizer (src/src/image_organizer.py) -/

/-- Minimum Jaccard similarity between item keys to trigger a duplicate
warning (DUPLICATE_SIMILARITY_THRESHOLD). -/
def DUPLICATE_SIMILARITY_THRESHOLD : ℚ := 0.6

/-- ImageOrganizer._key_similarity(key_a, key_b): token-overlap Jaccard of
the keys split on "_" (no lower-casing here, unlike the catalog scorer);
the empty-token-set guard mirrors the source even though a split result is
never the empty list. -/
def key_similarity (key_a key_b : String) : ℚ :=
  let tokens_a := py_token_set key_a
  let tokens_b := py_token_set key_b
  if tokens_a.card = 0 ∨ tokens_b.card = 0 then 0
  else ((tokens_a ∩ tokens_b).card : ℚ) / ((tokens_a ∪ tokens_b).card : ℚ)

/-- Round-half-even of a rational, the rounding used by Python's fixed
precision formatting; f-string percent formatting with 0 digits renders
round-half-even of similarity * 100 (modelled exactly over the rationals,
whereas CPython rounds the nearest double, which can differ when the exact
value is not representable and sits within an ulp of a half-integer - no
such key pair occurs in the claims). -/
def round_half_even (q : ℚ) : ℤ :=
  if q - ⌊q⌋ < 1 / 2 then ⌊q⌋
  else if 1 / 2 < q - ⌊q⌋ then ⌊q⌋ + 1
  else if ⌊q⌋ % 2 = 0 then ⌊q⌋ else ⌊q⌋ + 1

/-- The warning string appended by detect_similar_groups for the pair
(key_a, key_b), with the similarity percent-formatted to 0 digits. -/
def duplicate_warning (key_a key_b : String) (similarity : ℚ) : String :=
  "WARNING: Possible duplicate items detected: '" ++ key_a ++ "' and '" ++
    key_b ++ "' (similarity: " ++ toString (round_half_even (similarity * 100)) ++
    "%). Please review these folders."

/-- The nested pair loop of detect_similar_groups over the key list:
for i, key_a in enumerate(keys): for key_b in keys[i+1:]: append a warning
when _key_similarity(key_a, key_b) >= DUPLICATE_SIMILARITY_THRESHOLD. -/
def pair_warnings : List String → List String
  | [] => []
  | key_a :: rest =>
    rest.filterMap (fun key_b =>
      if DUPLICATE_SIMILARITY_THRESHOLD ≤ key_similarity key_a key_b then
        some (duplicate_warning key_a key_b (key_similarity key_a key_b))
      else none) ++ pair_warnings rest

/-- ImageOrganizer.detect_similar_groups(groups): warnings over the keys of
the group mapping in insertion order; the groups themselves are only read. -/
def detect_similar_groups (groups : List (String × List Analysis)) :
    List String :=
  pair_warnings (groups.map Prod.fst)

/-- One groups.setdefault(key, []).append(analysis) step: dictionaries
preserve key insertion order, members keep arrival order. -/
def insert_group (key : String) (a : Analysis) :
    List (String × List Analysis) → List (String × List Analysis)
  | [] => [(key, [a])]
  | (k, l) :: rest =>
    if k = key then (k, l ++ [a]) :: rest
    else (k, l) :: insert_group key a rest

/-- ImageOrganizer.group_analyses_by_item(analyses): partition by
analysis.get("item_key", "unknown_item") preserving first-seen key order. -/
def group_analyses_by_item (analyses : List Analysis) :
    List (String × List Analysis) :=
  analyses.foldl (fun g a => insert_group (a.item_key.getD "unknown_item") a g) []

/-- Word characters of the regex class \w, in the ASCII range the
repository's snake_case keys use (Python's re is Unicode-aware; keys are
built from ASCII model output). -/
def is_word_char (c : Char) : Bool := c.isAlphanum || c == '_'

def is_space_or_dash (c : Char) : Bool := c.isWhitespace || c == '-'

/-- Collapse every run of whitespace/dash characters to one underscore:
re.sub(r"[\s-]+", "_", name).  The flag records whether the previous
character belonged to the current separator run. -/
def collapse_seps : Bool → List Char → List Char
  | _, [] => []
  | prev, c :: rest =>
    if is_space_or_dash c then
      if prev then collapse_seps true rest
      else '_' :: collapse_seps true rest
    else c :: collapse_seps false rest

/-- str.strip("_") on a character list. -/
def strip_underscores (l : List Char) : List Char :=
  ((l.dropWhile (· = '_')).reverse.dropWhile (· = '_')).reverse

/-- ImageOrganizer._make_folder_name(item_key): strip + lower, delete
characters outside [\w\s-], collapse separator runs to "_", strip
underscores, with fallback "unknown_item". -/
def make_folder_name (item_key : String) : String :=
  let name := (py_lower (py_strip item_key)).data
  let name := name.filter (fun c => is_word_char c || c.isWhitespace || c == '-')
  let name := strip_underscores (collapse_seps false name)
  if name = [] then "unknown_item" else ⟨name⟩

/-! ### Merge orchestrator state (src/main.py, _organize_and_list)

The filesystem effects the no-match and match paths perform are modelled on
an explicit state: the output directory is a list of folders (name plus
contained file names; file contents are not modelled, and rewriting an
existing file name leaves the state unchanged, which is sound for the
claims, all about which folders, files and entries exist), together with
the in-memory catalog entry list.  Source images are given by the list of
existing source paths. -/

structure Folder where
  name : String
  files : List String
deriving DecidableEq, Repr

structure OrgState where
  folders : List Folder
  entries : List CatalogEntry
deriving DecidableEq, Repr

/-- Path(p).name: the final path component. -/
def py_basename (p : String) : String :=
  ⟨(py_split_char '/' p.data).getLastD p.data⟩

/-- Path(name).stem and Path(name).suffix: split at the last dot, a leading
dot not counting as an extension separator. -/
def py_stem_suffix (name : String) : String × String :=
  match ((List.range name.data.length).filter
      (fun i => name.data.getD i ' ' == '.')).reverse with
  | [] => (name, "")
  | i :: _ =>
    if i = 0 then (name, "")
    else (⟨name.data.take i⟩, ⟨name.data.drop i⟩)

def has_folder (folders : List Folder) (name : String) : Bool :=
  folders.any (fun f => f.name == name)

def lookup_folder (folders : List Folder) (name : String) : Option Folder :=
  folders.find? (fun f => f.name == name)

/-- ImageOrganizer.is_already_processed(folder): the finalized listing file
listing.txt is the sentinel. -/
def is_already_processed (f : Folder) : Bool := "listing.txt" ∈ f.files

/-- The collision loop of create_item_folder: smallest counter from 2 whose
candidate folder name is free; fuel bounds the search (any fuel beyond the
folder count suffices). -/
def free_folder_name (folders : List Folder) (base : String) :
    Nat → Nat → String
  | 0, counter => base ++ "_" ++ toString counter
  | fuel + 1, counter =>
    let candidate := base ++ "_" ++ toString counter
    if has_folder folders candidate then
      free_folder_name folders base fuel (counter + 1)
    else candidate

/-- ImageOrganizer.create_item_folder(item_key, item_name): returns the
created folder's name and the new folder list (mkdir of a fresh,
collision-free directory). -/
def create_item_folder (folders : List Folder) (item_key : String) :
    String × List Folder :=
  let folder_name := make_folder_name item_key
  let final_name :=
    if has_folder folders folder_name then
      free_folder_name folders folder_name (folders.length + 1) 2
    else folder_name
  (final_name, folders ++ [{ name := final_name, files := [] }])

/-- The collision loop of copy_image_to_folder: the destination file name,
renamed stem_counter ++ suffix with the smallest free counter from 2 when
the plain name is taken. -/
def free_file_name (files : List String) (stem suffix : String) :
    Nat → Nat → String
  | 0, counter => stem ++ "_" ++ toString counter ++ suffix
  | fuel + 1, counter =>
    let candidate := stem ++ "_" ++ toString counter ++ suffix
    if candidate ∈ files then free_file_name files stem suffix fuel (counter + 1)
    else candidate

/-- ImageOrganizer.copy_image_to_folder(source, dest_folder) restricted to
the destination folder's file list: shutil.copy2 lands the source's base
name, suffix-renamed on a clash, never overwriting. -/
def copy_image_to_folder (f : Folder) (source : String) : Folder :=
  let dest := py_basename source
  if dest ∈ f.files then
    let s := py_stem_suffix dest
    { f with files := f.files ++
        [free_file_name f.files s.1 s.2 (f.files.length + 1) 2] }
  else { f with files := f.files ++ [dest] }

/-- Rewrite the folder of the given name (item folder names are unique in
every state the orchestrator builds; the first match is updated). -/
def update_folder (name : String) (g : Folder → Folder) :
    List Folder → List Folder
  | [] => []
  | f :: rest =>
    if f.name = name then g f :: rest
    else f :: update_folder name g rest

/-- Path.write_text on the state: the file name joins the folder when
absent (overwriting an existing file changes only content, unmodelled). -/
def write_file (f : Folder) (name : String) : Folder :=
  if name ∈ f.files then f else { f with files := f.files ++ [name] }

/-- The update-note file name: listing_update_{today}.txt, disambiguated by
a counter from 2 while the candidate exists. -/
def update_note_name (files : List String) (today : String) : String :=
  let plain := "listing_update_" ++ today ++ ".txt"
  if plain ∈ files then
    free_file_name files ("listing_update_" ++ today) ".txt"
      (files.length + 1) 2
  else plain

/-- ItemCatalog.build_canonical_text(item_key, analyses): humanized key,
then (from the first analysis) truthy item_name, category and condition,
then the longest description across the analyses when truthy, joined with
single spaces. -/
def build_canonical_text (item_key : String) (analyses : List Analysis) :
    String :=
  let parts := [py_replace_underscore_space item_key]
  let parts :=
    match analyses with
    | [] => parts
    | base :: _ =>
      let parts := parts ++
        (match base.item_name with
          | some n => if n = "" then [] else [n]
          | none => [])
      let parts := parts ++
        (match base.category with
          | some n => if n = "" then [] else [n]
          | none => [])
      let parts := parts ++
        (match base.condition with
          | some n => if n = "" then [] else [n]
          | none => [])
      let descs := analyses.map (fun a => a.description.getD "")
      let best_desc :=
        match descs with
        | [] => ""
        | d :: ds => py_max_by_len d ds
      parts ++ (if best_desc = "" then [] else [best_desc])
  py_join " " parts

/-- image_names of one group in _organize_and_list:
[a.get("image_name", "") for a in item_analyses if a.get("image_name")]. -/
def group_image_names (item_analyses : List Analysis) : List String :=
  item_analyses.filterMap (fun a =>
    match a.image_name with
    | some s => if s = "" then none else some s
    | none => none)

/-- Copy every group member's existing source image into the named folder
(the for-analysis loop of both the match and the no-match path; a source
path absent from src_exists is skipped by the if src.exists() guard). -/
def copy_group_images (src_exists : List String) (name : String)
    (item_analyses : List Analysis) (folders : List Folder) : List Folder :=
  item_analyses.foldl (fun fs a =>
    if a.image_path ∈ src_exists then
      update_folder name (fun f => copy_image_to_folder f a.image_path) fs
    else fs) folders

/-- The no-match path of _organize_and_list for one group: skip the whole
group when a folder for the exact item_key exists and already holds the
finalized listing file; otherwise create a collision-free folder, copy the
group's images, write listing.txt, and add a catalog entry titled by the
merged listing. -/
def no_match_path (now : String) (src_exists : List String)
    (st : OrgState) (item_key : String) (item_analyses : List Analysis)
    (canonical_text : String) (image_names : List String) : OrgState :=
  let skip :=
    match lookup_folder st.folders (make_folder_name item_key) with
    | some f => is_already_processed f
    | none => false
  if skip then st
  else
    let created := create_item_folder st.folders item_key
    let folders := copy_group_images src_exists created.1 item_analyses created.2
    let folders := update_folder created.1 (fun f => write_file f "listing.txt")
      folders
    let title := (merge_analyses item_analyses).title
    { folders := folders,
      entries := add_entry now item_key title canonical_text
        (some image_names) st.entries }

/-- One iteration of the group loop of _organize_and_list: consult
find_match; on a match whose existing folder resolves, copy the images in,
write a dated update note (never the listing file) and extend the entry's
images; otherwise take the no-match path. -/
def process_group (threshold : ℚ) (today now : String)
    (src_exists : List String) (st : OrgState) (item_key : String)
    (item_analyses : List Analysis) : OrgState :=
  let canonical_text := build_canonical_text item_key item_analyses
  let image_names := group_image_names item_analyses
  match find_match st.entries threshold canonical_text item_key with
  | some (existing_entry, _similarity) =>
    let existing_key := existing_entry.item_key
    match lookup_folder st.folders (make_folder_name existing_key) with
    | some _ =>
      let fname := make_folder_name existing_key
      let folders := copy_group_images src_exists fname item_analyses st.folders
      let note :=
        match lookup_folder folders fname with
        | some f => update_note_name f.files today
        | none => update_note_name [] today
      let folders := update_folder fname (fun f => write_file f note) folders
      { folders := folders,
        entries := update_entry_images now existing_key image_names st.entries }
    | none =>
      no_match_path now src_exists st item_key item_analyses
        canonical_text image_names
  | none =>
    no_match_path now src_exists st item_key item_analyses
      canonical_text image_names

/-- The grouping+merge pass of _organize_and_list over one classification
batch (duplicate warnings are printed, not recorded in the state). -/
def organize_and_list (threshold : ℚ) (today now : String)
    (src_exists : List String) (st : OrgState) (analyses : List Analysis) :
    OrgState :=
  (group_analyses_by_item analyses).foldl
    (fun s g => process_group threshold today now src_exists s g.1 g.2) st

/-! ### Catalog load (ItemCatalog.load)

The outcomes of catalog_path.read_text(encoding="utf-8") are: the file is
missing (the exists() guard), an OSError, a UnicodeDecodeError - raised by
read_text when the bytes are not valid UTF-8, a ValueError that is neither
a json.JSONDecodeError nor an OSError - or the decoded text; json.loads on
text either raises json.JSONDecodeError or yields a value that is or is
not a list.  The except clause of load() catches exactly
(json.JSONDecodeError, OSError). -/

inductive ReadResult where
  | missing
  | osError
  | undecodable
  | ok (text : String)
deriving DecidableEq, Repr

inductive ParseResult where
  | jsonDecodeError
  | parsedList (entries : List CatalogEntry)
  | parsedNonList
deriving DecidableEq, Repr

inductive PyError where
  | unicodeDecodeError
deriving DecidableEq, Repr

/-- ItemCatalog.load(): the resulting entry list, or the exception that
escapes to the caller.  The missing-file branch, the caught exceptions and
the unexpected-format branch all yield the empty list; a UnicodeDecodeError
from read_text matches no except clause and propagates. -/
def load (read : ReadResult) (parse : String → ParseResult) :
    Except PyError (List CatalogEntry) :=
  match read with
  | .missing => .ok []
  | .osError => .ok []
  | .undecodable => .error .unicodeDecodeError
  | .ok text =>
    match parse text with
    | .jsonDecodeError => .ok []
    | .parsedList entries => .ok entries
    | .parsedNonList => .ok []

/-! ### A concrete two-run scenario for the rerun analysis

One analysis batch of a single image, run through the grouping+merge pass
twice (with the catalog persisted between runs, as main() does via
catalog.load/save): the states below are the exact results of the two
runs. -/

def c6_analysis : Analysis :=
  { image_name := some "img1.jpg"
    image_path := "in/img1.jpg"
    item_key := some "blue_mug"
    item_name := some "Blue Mug"
    description := some "nice blue mug"
    price := some 12
    condition := some "Good"
    category := some "Other" }

def c6_entry1 : CatalogEntry :=
  { item_key := "blue_mug"
    title := "Blue Mug - Good Condition"
    canonical_text := "blue mug Blue Mug Other Good nice blue mug"
    created_at := "t1"
    updated_at := "t1"
    representative_image_names := ["img1.jpg"] }

/-- The state after the first run: one item folder holding the image and
the finalized listing-file sentinel, one catalog entry. -/
def c6_state1 : OrgState :=
  { folders := [{ name := "blue_mug", files := ["img1.jpg", "listing.txt"] }]
    entries := [c6_entry1] }

def c6_folder2 : Folder :=
  { name := "blue_mug"
    files := ["img1.jpg", "listing.txt", "img1_2.jpg",
      "listing_update_2026-01-02.txt"] }

/-- The state after the second run on the same batch: the image is copied
again under the collision-renamed name img1_2.jpg and a dated update note
is written; the catalog entry gets a fresh updated_at. -/
def c6_state2 : OrgState :=
  { folders := [c6_folder2]
    entries := [{ c6_entry1 with updated_at := "t2" }] }

def c6_ct : String := "blue mug Blue Mug Other Good nice blue mug"

/-! ### Helper lemmas -/

lemma fromkeys_go_mem (l : List String) : ∀ (acc : List String) (x : String),
    (x ∈ l.foldl (fun acc x => if x ∈ acc then acc else acc ++ [x]) acc) ↔
      x ∈ acc ∨ x ∈ l := by
  induction l with
  | nil => simp
  | cons y ys ih =>
    intro acc x
    simp only [List.foldl_cons]
    by_cases hy : y ∈ acc
    · rw [if_pos hy, ih]
      constructor
      · rintro (h | h)
        · exact Or.inl h
        · exact Or.inr (List.mem_cons_of_mem _ h)
      · rintro (h | h)
        · exact Or.inl h
        · rcases List.mem_cons.mp h with h | h
          · exact Or.inl (h ▸ hy)
          · exact Or.inr h
    · rw [if_neg hy, ih]
      simp only [List.mem_append, List.mem_singleton, List.mem_cons]
      tauto

lemma fromkeys_go_nodup (l : List String) : ∀ acc : List String, acc.Nodup →
    (l.foldl (fun acc x => if x ∈ acc then acc else acc ++ [x]) acc).Nodup := by
  induction l with
  | nil => intro acc h; simpa using h
  | cons y ys ih =>
    intro acc h
    simp only [List.foldl_cons]
    by_cases hy : y ∈ acc
    · rw [if_pos hy]; exact ih acc h
    · rw [if_neg hy]
      refine ih _ ?_
      simpa [List.nodup_append] using ⟨h, hy⟩

lemma fromkeys_go_of_nodup (l : List String) : ∀ acc : List String, l.Nodup →
    (∀ x ∈ l, x ∉ acc) →
    l.foldl (fun acc x => if x ∈ acc then acc else acc ++ [x]) acc = acc ++ l := by
  induction l with
  | nil => intro acc _ _; simp
  | cons y ys ih =>
    intro acc hnd hdis
    simp only [List.foldl_cons]
    rw [if_neg (hdis y (List.mem_cons_self y ys))]
    rw [ih (acc ++ [y]) (List.Nodup.of_cons hnd)]
    · simp
    · intro x hx
      simp only [List.mem_append, List.mem_singleton]
      rintro (h | rfl)
      · exact hdis x (List.mem_cons_of_mem _ hx) h
      · exact (List.nodup_cons.mp hnd).1 hx

lemma fromkeys_dedup_mem (l : List String) (x : String) :
    x ∈ fromkeys_dedup l ↔ x ∈ l := by
  unfold fromkeys_dedup
  rw [fromkeys_go_mem]
  simp

lemma fromkeys_dedup_nodup (l : List String) : (fromkeys_dedup l).Nodup :=
  fromkeys_go_nodup l [] List.nodup_nil

lemma fromkeys_dedup_self (l : List String) :
    fromkeys_dedup (fromkeys_dedup l) = fromkeys_dedup l := by
  have h := fromkeys_go_of_nodup (fromkeys_dedup l) [] (fromkeys_dedup_nodup l)
    (by simp)
  unfold fromkeys_dedup at h ⊢
  simpa using h

lemma fromkeys_dedup_idem_append (xs ys : List String) :
    fromkeys_dedup (fromkeys_dedup xs ++ ys) = fromkeys_dedup (xs ++ ys) := by
  show (fromkeys_dedup xs ++ ys).foldl _ [] = (xs ++ ys).foldl _ []
  rw [List.foldl_append, List.foldl_append]
  congr 1
  exact fromkeys_dedup_self xs

lemma exists_first_split {α : Type} (p : α → Prop) [DecidablePred p] :
    ∀ l : List α, (∃ x ∈ l, p x) →
      ∃ pre x post, l = pre ++ x :: post ∧ p x ∧ ∀ y ∈ pre, ¬ p y := by
  intro l
  induction l with
  | nil => rintro ⟨x, hx, _⟩; cases hx
  | cons a as ih =>
    intro h
    by_cases ha : p a
    · exact ⟨[], a, as, rfl, ha, by simp⟩
    · have : ∃ x ∈ as, p x := by
        rcases h with ⟨x, hx, hpx⟩
        rcases List.mem_cons.mp hx with rfl | hx
        · exact absurd hpx ha
        · exact ⟨x, hx, hpx⟩
      rcases ih this with ⟨pre, x, post, heq, hpx, hpre⟩
      refine ⟨a :: pre, x, post, by rw [heq]; rfl, hpx, ?_⟩
      intro y hy
      rcases List.mem_cons.mp hy with rfl | hy
      · exact ha
      · exact hpre y hy

/-- The fresh entry appended by add_entry when the key is absent. -/
def fresh_entry (now k t c : String) (img : Option (List String)) :
    CatalogEntry :=
  { item_key := k, title := t, canonical_text := c, created_at := now,
    updated_at := now, representative_image_names := img.getD [] }

/-- The in-place update performed by add_entry on the first entry whose
key matches. -/
def updated_entry (now t c : String) (img : Option (List String))
    (e : CatalogEntry) : CatalogEntry :=
  { e with
      title := t
      canonical_text := c
      updated_at := now
      representative_image_names :=
        match img with
        | some new => fromkeys_dedup (e.representative_image_names ++ new)
        | none => e.representative_image_names }

lemma add_entry_not_found (now k t c : String) (img : Option (List String)) :
    ∀ entries : List CatalogEntry, (∀ e ∈ entries, e.item_key ≠ k) →
      add_entry now k t c img entries =
        entries ++ [fresh_entry now k t c img] := by
  intro entries
  induction entries with
  | nil => intro _; rfl
  | cons e rest ih =>
    intro h
    have he : e.item_key ≠ k := h e (List.mem_cons_self e rest)
    simp only [add_entry, if_neg he, List.cons_append, List.cons.injEq, true_and]
    exact ih (fun x hx => h x (List.mem_cons_of_mem _ hx))

lemma add_entry_found (now k t c : String) (img : Option (List String))
    (pre : List CatalogEntry) (e : CatalogEntry) (post : List CatalogEntry)
    (hpre : ∀ y ∈ pre, y.item_key ≠ k) (he : e.item_key = k) :
    add_entry now k t c img (pre ++ e :: post) =
      pre ++ updated_entry now t c img e :: post := by
  induction pre with
  | nil =>
    simp only [List.nil_append, add_entry, if_pos he]
    rfl
  | cons a pre ih =>
    have ha : a.item_key ≠ k := hpre a (List.mem_cons_self a pre)
    simp only [List.cons_append, add_entry, if_neg ha, List.cons.injEq, true_and]
    exact ih (fun y hy => hpre y (List.mem_cons_of_mem _ hy))

/-! ### C8 -/

/-- C8: catalog load fails soft on a missing file, on an OSError, on
corrupt JSON text and on a non-list payload, always yielding the empty
entry list; but the code does raise to its caller when the catalog file's
bytes are not valid UTF-8, because read_text then raises
UnicodeDecodeError, which the except (json.JSONDecodeError, OSError)
clause does not catch.  This refutes the claim's "never raises" for
byte-level corruption while establishing every soft path it lists. -/
theorem C8_load_error_paths (parse : String → ParseResult) :
    load ReadResult.missing parse = Except.ok [] ∧
    load ReadResult.osError parse = Except.ok [] ∧
    (∀ text, parse text = ParseResult.jsonDecodeError →
      load (ReadResult.ok text) parse = Except.ok []) ∧
    (∀ text, parse text = ParseResult.parsedNonList →
      load (ReadResult.ok text) parse = Except.ok []) ∧
    (∀ text entries, parse text = ParseResult.parsedList entries →
      load (ReadResult.ok text) parse = Except.ok entries) ∧
    load ReadResult.undecodable parse = Except.error PyError.unicodeDecodeError := by
  refine ⟨rfl, rfl, ?_, ?_, ?_, rfl⟩
  · intro text h; simp [load, h]
  · intro text h; simp [load, h]
  · intro text entries h; simp [load, h]

/-- C8 witness: the soft and raising branches at a concrete parse
function that decodes every text as corrupt JSON. -/
theorem C8_load_witness :
    load ReadResult.missing (fun _ => ParseResult.jsonDecodeError) =
      Except.ok [] ∧
    load ReadResult.undecodable (fun _ => ParseResult.jsonDecodeError) =
      Except.error PyError.unicodeDecodeError := by
  have h := C8_load_error_paths (fun _ => ParseResult.jsonDecodeError)
  exact ⟨h.1, h.2.2.2.2.2⟩

/-! ### C10 -/

/-- C10: when an entry with the given item_key exists and image_names is
None, add_entry rewrites exactly the first such entry, changing only
title, canonical_text and updated_at, while created_at and
representative_image_names of that entry, and every other entry of the
catalog, are left unchanged. -/
theorem C10_add_entry_none_frame (entries : List CatalogEntry)
    (now k t c : String) (h : ∃ e ∈ entries, e.item_key = k) :
    ∃ pre e post,
      entries = pre ++ e :: post ∧
      (∀ y ∈ pre, y.item_key ≠ k) ∧ e.item_key = k ∧
      ∃ e' : CatalogEntry,
        add_entry now k t c none entries = pre ++ e' :: post ∧
        e'.title = t ∧ e'.canonical_text = c ∧ e'.updated_at = now ∧
        e'.item_key = e.item_key ∧ e'.created_at = e.created_at ∧
        e'.representative_image_names = e.representative_image_names := by
  rcases exists_first_split (fun e => e.item_key = k) entries h with
    ⟨pre, e, post, heq, he, hpre⟩
  refine ⟨pre, e, post, heq, hpre, he, ?_⟩
  refine ⟨updated_entry now t c none e, ?_, rfl, rfl, rfl, rfl, rfl, rfl⟩
  rw [heq, add_entry_found now k t c none pre e post hpre he]

/-- C10 witness: concrete two-entry catalog, updating the second entry by
key with image_names = None. -/
theorem C10_witness :
    ∃ pre e post,
      ([{ item_key := "chair", title := "Chair", canonical_text := "chair",
          created_at := "d0", updated_at := "d0",
          representative_image_names := ["c.jpg"] },
        { item_key := "mug", title := "Mug", canonical_text := "mug",
          created_at := "d1", updated_at := "d1",
          representative_image_names := ["m.jpg"] }] : List CatalogEntry) =
          pre ++ e :: post ∧
      (∀ y ∈ pre, y.item_key ≠ "mug") ∧ e.item_key = "mug" ∧
      ∃ e' : CatalogEntry,
        add_entry "d2" "mug" "Blue Mug" "blue mug" none
          [{ item_key := "chair", title := "Chair", canonical_text := "chair",
             created_at := "d0", updated_at := "d0",
             representative_image_names := ["c.jpg"] },
           { item_key := "mug", title := "Mug", canonical_text := "mug",
             created_at := "d1", updated_at := "d1",
             representative_image_names := ["m.jpg"] }] = pre ++ e' :: post ∧
        e'.title = "Blue Mug" ∧ e'.canonical_text = "blue mug" ∧
        e'.updated_at = "d2" ∧ e'.item_key = e.item_key ∧
        e'.created_at = e.created_at ∧
        e'.representative_image_names = e.representative_image_names :=
  C10_add_entry_none_frame _ "d2" "mug" "Blue Mug" "blue mug"
    ⟨_, List.mem_cons_of_mem _ (List.mem_cons_self _ _), rfl⟩

/-! ### C3 -/

/-- C3 counterexample: the claim quantifies over every catalog state, but
on a state that already holds two entries for the key (such states are
reachable, since load accepts any well-formed entry list), two add_entry
calls leave two entries for the key, not exactly one. -/
theorem C3_counterexample :
    ¬ (((add_entry "n2" "k" "t2" "c2" (some ["b"])
          (add_entry "n1" "k" "t1" "c1" (some ["a"])
            [fresh_entry "n0" "k" "t0" "c0" (some []),
             fresh_entry "n0" "k" "t0" "c0" (some [])])).filter
          (fun e => e.item_key == "k")).length = 1) := by
  decide

lemma filter_key_nil (k : String) (l : List CatalogEntry)
    (h : ∀ e ∈ l, e.item_key ≠ k) :
    l.filter (fun e => e.item_key == k) = [] := by
  rw [List.filter_eq_nil_iff]
  intro e he
  simpa using h e he

/-- C3 amended: on every catalog state holding at most one entry for the
item_key (the catalog invariant), two add_entry calls with that key leave
exactly one entry for it; that entry's representative_image_names is
duplicate-free and consists exactly of the pre-existing entry's images (if
any) together with both calls' image lists; and when no entry with the key
existed, the first call appends a fresh entry with created_at = updated_at
and the final image list is precisely the insertion-order deduplication of
the two calls' lists concatenated. -/
theorem C3_add_entry_twice (entries : List CatalogEntry)
    (k now1 now2 t1 c1 t2 c2 : String) (L1 L2 : List String)
    (h : (entries.filter (fun e => e.item_key == k)).length ≤ 1) :
    (((add_entry now2 k t2 c2 (some L2)
        (add_entry now1 k t1 c1 (some L1) entries)).filter
        (fun e => e.item_key == k)).length = 1) ∧
    (∀ e ∈ add_entry now2 k t2 c2 (some L2)
        (add_entry now1 k t1 c1 (some L1) entries),
      e.item_key = k →
        e.representative_image_names.Nodup ∧
        ∀ x, x ∈ e.representative_image_names ↔
          ((∃ e0 ∈ entries, e0.item_key = k ∧
              x ∈ e0.representative_image_names) ∨ x ∈ L1 ∨ x ∈ L2)) ∧
    ((∀ e ∈ entries, e.item_key ≠ k) →
      add_entry now1 k t1 c1 (some L1) entries =
        entries ++ [fresh_entry now1 k t1 c1 (some L1)] ∧
      (fresh_entry now1 k t1 c1 (some L1)).created_at =
        (fresh_entry now1 k t1 c1 (some L1)).updated_at ∧
      ∀ e ∈ add_entry now2 k t2 c2 (some L2)
          (add_entry now1 k t1 c1 (some L1) entries),
        e.item_key = k →
          e.representative_image_names = fromkeys_dedup (L1 ++ L2) ∧
          e.created_at = now1) := by
  by_cases hex : ∃ e ∈ entries, e.item_key = k
  · rcases exists_first_split (fun e => e.item_key = k) entries hex with
      ⟨pre, e0, post, heq, he0, hpre⟩
    have hpost : ∀ e ∈ post, e.item_key ≠ k := by
      intro e he hk
      have hfe : (entries.filter (fun e => e.item_key == k)).length ≥ 2 := by
        rw [heq, List.filter_append, List.filter_cons]
        simp only [he0, beq_self_eq_true, if_pos]
        have : e ∈ post.filter (fun e => e.item_key == k) :=
          List.mem_filter.mpr ⟨he, by simpa using hk⟩
        have hlen : 1 ≤ (post.filter (fun e => e.item_key == k)).length :=
          List.length_pos.mpr (List.ne_nil_of_mem this)
        simp only [List.length_append, List.length_cons]
        omega
      omega
    have hs1 : add_entry now1 k t1 c1 (some L1) entries =
        pre ++ updated_entry now1 t1 c1 (some L1) e0 :: post := by
      rw [heq]; exact add_entry_found _ _ _ _ _ _ _ _ hpre he0
    have hukey : (updated_entry now1 t1 c1 (some L1) e0).item_key = k := he0
    have hs2 : add_entry now2 k t2 c2 (some L2)
        (add_entry now1 k t1 c1 (some L1) entries) =
        pre ++ updated_entry now2 t2 c2 (some L2)
          (updated_entry now1 t1 c1 (some L1) e0) :: post := by
      rw [hs1]; exact add_entry_found _ _ _ _ _ _ _ _ hpre hukey
    have hrep : (updated_entry now2 t2 c2 (some L2)
        (updated_entry now1 t1 c1 (some L1) e0)).representative_image_names =
        fromkeys_dedup (e0.representative_image_names ++ L1 ++ L2) := by
      show fromkeys_dedup
        (fromkeys_dedup (e0.representative_image_names ++ L1) ++ L2) = _
      rw [fromkeys_dedup_idem_append]
    refine ⟨?_, ?_, ?_⟩
    · rw [hs2, List.filter_append, List.filter_cons,
        if_pos (by simpa using hukey : ((updated_entry now2 t2 c2 (some L2)
          (updated_entry now1 t1 c1 (some L1) e0)).item_key == k) = true)]
      rw [filter_key_nil k pre hpre, filter_key_nil k post hpost]
      rfl
    · intro e he hk
      rw [hs2] at he
      rcases List.mem_append.mp he with hin | hin
      · exact absurd hk (hpre e hin)
      · rcases List.mem_cons.mp hin with rfl | hin
        · constructor
          · rw [hrep]; exact fromkeys_dedup_nodup _
          · intro x
            rw [hrep, fromkeys_dedup_mem]
            simp only [List.append_assoc, List.mem_append]
            constructor
            · rintro (hx | hx | hx)
              · exact Or.inl ⟨e0, by rw [heq]; simp, he0, hx⟩
              · exact Or.inr (Or.inl hx)
              · exact Or.inr (Or.inr hx)
            · rintro (⟨e', he', hk', hx⟩ | hx | hx)
              · rw [heq] at he'
                rcases List.mem_append.mp he' with h' | h'
                · exact absurd hk' (hpre e' h')
                · rcases List.mem_cons.mp h' with rfl | h'
                  · exact Or.inl hx
                  · exact absurd hk' (hpost e' h')
              · exact Or.inr (Or.inl hx)
              · exact Or.inr (Or.inr hx)
        · exact absurd hk (hpost e hin)
    · intro hnone
      exact absurd he0 (hnone e0 (by rw [heq]; simp))
  · have hnone : ∀ e ∈ entries, e.item_key ≠ k := by
      intro e he hk; exact hex ⟨e, he, hk⟩
    have hs1 : add_entry now1 k t1 c1 (some L1) entries =
        entries ++ [fresh_entry now1 k t1 c1 (some L1)] :=
      add_entry_not_found now1 k t1 c1 (some L1) entries hnone
    have hfkey : (fresh_entry now1 k t1 c1 (some L1)).item_key = k := rfl
    have hs2 : add_entry now2 k t2 c2 (some L2)
        (add_entry now1 k t1 c1 (some L1) entries) =
        entries ++ updated_entry now2 t2 c2 (some L2)
          (fresh_entry now1 k t1 c1 (some L1)) :: [] := by
      rw [hs1]; exact add_entry_found _ _ _ _ _ _ _ _ hnone hfkey
    have hrep : (updated_entry now2 t2 c2 (some L2)
        (fresh_entry now1 k t1 c1 (some L1))).representative_image_names =
        fromkeys_dedup (L1 ++ L2) := rfl
    refine ⟨?_, ?_, ?_⟩
    · rw [hs2, List.filter_append, List.filter_cons,
        if_pos (by simp [updated_entry, fresh_entry] :
          ((updated_entry now2 t2 c2 (some L2)
            (fresh_entry now1 k t1 c1 (some L1))).item_key == k) = true)]
      rw [filter_key_nil k entries hnone]
      rfl
    · intro e he hk
      rw [hs2] at he
      rcases List.mem_append.mp he with hin | hin
      · exact absurd hk (hnone e hin)
      · rcases List.mem_cons.mp hin with rfl | hin
        · constructor
          · rw [hrep]; exact fromkeys_dedup_nodup _
          · intro x
            rw [hrep, fromkeys_dedup_mem]
            simp only [List.mem_append]
            constructor
            · rintro (hx | hx)
              · exact Or.inr (Or.inl hx)
              · exact Or.inr (Or.inr hx)
            · rintro (⟨e', he', hk', _⟩ | hx | hx)
              · exact absurd hk' (hnone e' he')
              · exact Or.inl hx
              · exact Or.inr hx
        · cases hin
    · intro _
      refine ⟨hs1, rfl, ?_⟩
      intro e he hk
      rw [hs2] at he
      rcases List.mem_append.mp he with hin | hin
      · exact absurd hk (hnone e hin)
      · rcases List.mem_cons.mp hin with rfl | hin
        · exact ⟨hrep, rfl⟩
        · cases hin

/-- C3 witness: the amended statement at a fresh one-entry-free catalog
and concrete image lists. -/
theorem C3_witness :
    (((add_entry "n2" "mug" "T2" "c2" (some ["b.jpg", "a.jpg"])
        (add_entry "n1" "mug" "T1" "c1" (some ["a.jpg", "a.jpg"]) [])).filter
        (fun e => e.item_key == "mug")).length = 1) ∧
    (∀ e ∈ add_entry "n2" "mug" "T2" "c2" (some ["b.jpg", "a.jpg"])
        (add_entry "n1" "mug" "T1" "c1" (some ["a.jpg", "a.jpg"]) []),
      e.item_key = "mug" →
        e.representative_image_names.Nodup ∧
        ∀ x, x ∈ e.representative_image_names ↔
          ((∃ e0 ∈ ([] : List CatalogEntry), e0.item_key = "mug" ∧
              x ∈ e0.representative_image_names) ∨
            x ∈ ["a.jpg", "a.jpg"] ∨ x ∈ ["b.jpg", "a.jpg"])) :=
  have h := C3_add_entry_twice [] "mug" "n1" "n2" "T1" "c1" "T2" "c2"
    ["a.jpg", "a.jpg"] ["b.jpg", "a.jpg"] (by decide)
  ⟨h.1, h.2.1⟩

/-! ### C4 -/

lemma py_split_underscore_ne_nil (l : List Char) :
    ∃ t ts, py_split_underscore l = t :: ts := by
  induction l with
  | nil => exact ⟨[], [], rfl⟩
  | cons c rest ih =>
    rcases ih with ⟨t, ts, h⟩
    by_cases hc : c = '_'
    · exact ⟨[], t :: ts, by simp [py_split_underscore, h, hc]⟩
    · exact ⟨c :: t, ts, by simp [py_split_underscore, h, hc]⟩

lemma py_token_set_nonempty (key : String) : (py_token_set key).Nonempty := by
  rcases py_split_underscore_ne_nil key.data with ⟨t, ts, h⟩
  refine ⟨(⟨t⟩ : String), ?_⟩
  unfold py_token_set
  rw [h]
  simp

/-- The empty-token-set guard of the scorer always takes the Jaccard
branch: split never returns an empty token set. -/
lemma compute_similarity_formula (text_a key_a text_b key_b : String) :
    compute_similarity text_a key_a text_b key_b =
      0.60 * ratio (py_lower text_a).data (py_lower text_b).data +
        0.20 * ratio (py_lower key_a).data (py_lower key_b).data +
        0.20 * (((py_token_set (py_lower key_a) ∩
            py_token_set (py_lower key_b)).card : ℚ) /
          ((py_token_set (py_lower key_a) ∪
            py_token_set (py_lower key_b)).card : ℚ)) := by
  simp only [compute_similarity]
  rw [if_pos ⟨Finset.card_pos.mpr (py_token_set_nonempty _),
    Finset.card_pos.mpr (py_token_set_nonempty _)⟩]

/-- Unfold ratio through externally supplied evaluations of the lengths
and the matched total (those are pure Nat computations, which the kernel
can check by decide). -/
lemma ratio_eval (a b : List Char) (m la lb : Nat)
    (hla : a.length = la) (hlb : b.length = lb)
    (hm : matched_total a b (la + lb + 1) 0 la 0 lb = m) :
    ratio a b = if la + lb = 0 then 1 else (2 * m : ℚ) / ((la + lb : Nat) : ℚ) := by
  unfold ratio
  rw [hla, hlb, hm]

/-- C4 counterexample: splitting a key on the separator never yields an
empty token set (the empty key splits into the single empty token), so
the reduction named by the claim fails at empty keys: there the Jaccard
component is 1, not 0, and the score is 0.20 above the claimed value. -/
theorem C4_counterexample :
    py_token_set (py_lower "") ≠ ∅ ∧
    compute_similarity "a" "" "a" "" = 1 ∧
    ¬ (compute_similarity "a" "" "a" "" =
        0.60 * ratio (py_lower "a").data (py_lower "a").data +
          0.20 * ratio (py_lower "").data (py_lower "").data) := by
  have hne : py_token_set (py_lower "") ≠ ∅ := by
    intro he
    have h1 : (py_token_set (py_lower "")).card = 1 := by decide
    rw [he] at h1
    simp at h1
  have hta : ratio (py_lower "a").data (py_lower "a").data = 1 := by
    rw [ratio_eval _ _ 1 1 1 (by decide) (by decide) (by decide)]
    norm_num
  have htk : ratio (py_lower "").data (py_lower "").data = 1 := by
    rw [ratio_eval _ _ 0 0 0 (by decide) (by decide) (by decide)]
    norm_num
  have hsim : compute_similarity "a" "" "a" "" = 1 := by
    rw [compute_similarity_formula, hta, htk,
      show (py_token_set (py_lower "") ∩ py_token_set (py_lower "")).card = 1
        from by decide,
      show (py_token_set (py_lower "") ∪ py_token_set (py_lower "")).card = 1
        from by decide]
    norm_num
  refine ⟨hne, hsim, ?_⟩
  rw [hsim, hta, htk]
  norm_num

/-- C4 amended: the token set of every key is nonempty (split always
yields at least one token, possibly the empty string), so the
empty-token-set guard of the scorer is unreachable and the Jaccard
component always equals intersection over union; for a pair of empty keys
that component is 1 and the score equals the 0.60-weighted text ratio plus
0.40, not the claimed 0.60/0.20 reduction. -/
theorem C4_token_sets_never_empty :
    (∀ key : String, (py_token_set (py_lower key)).Nonempty) ∧
    (∀ text_a key_a text_b key_b : String,
      compute_similarity text_a key_a text_b key_b =
        0.60 * ratio (py_lower text_a).data (py_lower text_b).data +
          0.20 * ratio (py_lower key_a).data (py_lower key_b).data +
          0.20 * (((py_token_set (py_lower key_a) ∩
              py_token_set (py_lower key_b)).card : ℚ) /
            ((py_token_set (py_lower key_a) ∪
              py_token_set (py_lower key_b)).card : ℚ))) ∧
    (∀ text_a text_b : String,
      compute_similarity text_a "" text_b "" =
        0.60 * ratio (py_lower text_a).data (py_lower text_b).data +
          0.20 * 1 + 0.20 * 1) := by
  refine ⟨fun key => py_token_set_nonempty _,
    fun ta ka tb kb => compute_similarity_formula ta ka tb kb, ?_⟩
  intro text_a text_b
  rw [compute_similarity_formula]
  have htk : ratio (py_lower "").data (py_lower "").data = 1 := by
    rw [ratio_eval _ _ 0 0 0 (by decide) (by decide) (by decide)]
    norm_num
  rw [htk,
    show (py_token_set (py_lower "") ∩ py_token_set (py_lower "")).card = 1
      from by decide,
    show (py_token_set (py_lower "") ∪ py_token_set (py_lower "")).card = 1
      from by decide]
  norm_num

/-! ### C7 -/

lemma py_max_by_len_spec (xs : List String) : ∀ x : String,
    py_max_by_len x xs ∈ x :: xs ∧
    ∀ s ∈ x :: xs, s.length ≤ (py_max_by_len x xs).length := by
  induction xs with
  | nil =>
    intro x
    refine ⟨List.mem_cons_self x [], ?_⟩
    intro s hs
    rcases List.mem_cons.mp hs with rfl | h
    · exact le_refl _
    · cases h
  | cons y ys ih =>
    intro x
    have hstep : py_max_by_len x (y :: ys) =
        py_max_by_len (if x.length < y.length then y else x) ys := rfl
    rcases ih (if x.length < y.length then y else x) with ⟨hmem, hge⟩
    constructor
    · rw [hstep]
      rcases List.mem_cons.mp hmem with h | h
      · rw [h]
        by_cases hxy : x.length < y.length
        · rw [if_pos hxy]
          exact List.mem_cons_of_mem _ (List.mem_cons_self _ _)
        · rw [if_neg hxy]
          exact List.mem_cons_self _ _
      · exact List.mem_cons_of_mem _ (List.mem_cons_of_mem _ h)
    · intro s hs
      rw [hstep]
      rcases List.mem_cons.mp hs with rfl | hs2
      · refine le_trans ?_ (hge _ (List.mem_cons_self _ _))
        by_cases h : s.length < y.length
        · rw [if_pos h]; exact le_of_lt h
        · rw [if_neg h]
      · rcases List.mem_cons.mp hs2 with rfl | hs3
        · refine le_trans ?_ (hge _ (List.mem_cons_self _ _))
          by_cases h : x.length < s.length
          · rw [if_pos h]
          · rw [if_neg h]; omega
        · exact hge s (List.mem_cons_of_mem _ hs3)

lemma fold_count_spec (l : List String) (ys : List String) : ∀ x : String,
    (ys.foldl (fun best s => if l.count best < l.count s then s else best) x
        ∈ x :: ys) ∧
    (∀ y ∈ x :: ys, l.count y ≤
      l.count (ys.foldl
        (fun best s => if l.count best < l.count s then s else best) x)) := by
  induction ys with
  | nil =>
    intro x
    refine ⟨List.mem_cons_self x [], ?_⟩
    intro y hy
    rcases List.mem_cons.mp hy with rfl | h
    · exact le_refl _
    · cases h
  | cons z zs ih =>
    intro x
    have hstep : (z :: zs).foldl
        (fun best s => if l.count best < l.count s then s else best) x =
        zs.foldl (fun best s => if l.count best < l.count s then s else best)
          (if l.count x < l.count z then z else x) := rfl
    rcases ih (if l.count x < l.count z then z else x) with ⟨hmem, hge⟩
    constructor
    · rw [hstep]
      rcases List.mem_cons.mp hmem with h | h
      · rw [h]
        by_cases hxz : l.count x < l.count z
        · rw [if_pos hxz]
          exact List.mem_cons_of_mem _ (List.mem_cons_self _ _)
        · rw [if_neg hxz]
          exact List.mem_cons_self _ _
      · exact List.mem_cons_of_mem _ (List.mem_cons_of_mem _ h)
    · intro y hy
      rw [hstep]
      rcases List.mem_cons.mp hy with rfl | hy2
      · refine le_trans ?_ (hge _ (List.mem_cons_self _ _))
        by_cases h : l.count y < l.count z
        · rw [if_pos h]; exact le_of_lt h
        · rw [if_neg h]
      · rcases List.mem_cons.mp hy2 with rfl | hy3
        · refine le_trans ?_ (hge _ (List.mem_cons_self _ _))
          by_cases h : l.count x < l.count y
          · rw [if_pos h]
          · rw [if_neg h]; omega
        · exact hge y (List.mem_cons_of_mem _ hy3)

lemma py_most_common_spec (dflt : String) (l : List String) (h : l ≠ []) :
    py_most_common dflt l ∈ l ∧
    ∀ v : String, l.count v ≤ l.count (py_most_common dflt l) := by
  have hddne : fromkeys_dedup l ≠ [] := by
    rcases List.exists_mem_of_ne_nil l h with ⟨a, ha⟩
    intro hdd
    have : a ∈ fromkeys_dedup l := (fromkeys_dedup_mem l a).mpr ha
    rw [hdd] at this
    cases this
  rcases hx : fromkeys_dedup l with _ | ⟨x, xs⟩
  · exact absurd hx hddne
  have hres : py_most_common dflt l =
      xs.foldl (fun best s => if l.count best < l.count s then s else best) x := by
    unfold py_most_common
    rw [hx]
  rcases fold_count_spec l xs x with ⟨hmem, hge⟩
  constructor
  · rw [hres]
    have : py_most_common dflt l ∈ x :: xs := hres ▸ hmem
    rw [← hx] at this
    rw [← hres]
    exact (fromkeys_dedup_mem l _).mp (by rw [hx]; exact hres ▸ hmem)
  · intro v
    by_cases hv : v ∈ l
    · have : v ∈ fromkeys_dedup l := (fromkeys_dedup_mem l v).mpr hv
      rw [hx] at this
      rw [hres]
      exact hge v this
    · rw [List.count_eq_zero_of_not_mem hv]
      exact Nat.zero_le _

/-- C7 counterexample: when every member description is empty, the merged
description is the fixed fallback string, not the (empty) longest member
description. -/
theorem C7_counterexample :
    (merge_analyses [({ description := some "" } : Analysis)]).description =
      "No description available." ∧
    ∀ a ∈ [({ description := some "" } : Analysis)],
      (merge_analyses [({ description := some "" } : Analysis)]).description ≠
        a.description.getD "" := by
  constructor
  · rfl
  · decide

/-- C7 amended: for every nonempty list of results in which at least one
member has a nonempty description, the merged description is a member
description of maximal length (the first such, by the max scan); the
merged price is the arithmetic mean of the valid prices, or the fixed
default 10.0 when there are none; the merged condition is a member
condition value of maximal multiplicity; and on the claim's concrete
instances: conditions Good, Good, Fair merge to Good and prices 10.0,
20.0 merge to 15.0.  (Only the description clause needed amending: with
all-empty descriptions the code substitutes a fixed fallback string.) -/
theorem C7_merge_rule (analyses : List Analysis) (h : analyses ≠ [])
    (hdesc : ∃ a ∈ analyses, a.description.getD "" ≠ "") :
    ((merge_analyses analyses).description ∈
        analyses.map (fun a => a.description.getD "") ∧
      (∀ a ∈ analyses, (a.description.getD "").length ≤
        (merge_analyses analyses).description.length)) ∧
    (analyses.filterMap (fun a => a.price) = [] →
      (merge_analyses analyses).price = DEFAULT_PRICE) ∧
    (analyses.filterMap (fun a => a.price) ≠ [] →
      (merge_analyses analyses).price =
        (analyses.filterMap (fun a => a.price)).sum /
          ((analyses.filterMap (fun a => a.price)).length : ℚ)) ∧
    ((merge_analyses analyses).condition ∈
        analyses.map (fun a => a.condition.getD "Good") ∧
      ∀ v : String,
        (analyses.map (fun a => a.condition.getD "Good")).count v ≤
          (analyses.map (fun a => a.condition.getD "Good")).count
            (merge_analyses analyses).condition) ∧
    (merge_analyses [({ condition := some "Good" } : Analysis),
        ({ condition := some "Good" } : Analysis),
        ({ condition := some "Fair" } : Analysis)]).condition = "Good" ∧
    (merge_analyses [({ price := some 10 } : Analysis),
        ({ price := some 20 } : Analysis)]).price = 15 := by
  obtain ⟨base, rest, rfl⟩ : ∃ b r, analyses = b :: r := by
    cases analyses with
    | nil => exact absurd rfl h
    | cons b r => exact ⟨b, r, rfl⟩
  have hBD := py_max_by_len_spec (rest.map (fun a => a.description.getD ""))
    (base.description.getD "")
  rcases hBD with ⟨hBDmem, hBDge⟩
  have hBDne : py_max_by_len (base.description.getD "")
      (rest.map (fun a => a.description.getD "")) ≠ "" := by
    rcases hdesc with ⟨a, ha, hane⟩
    have hmem : a.description.getD "" ∈
        (base.description.getD "") :: rest.map (fun a => a.description.getD "") := by
      rcases List.mem_cons.mp ha with rfl | ha2
      · exact List.mem_cons_self _ _
      · exact List.mem_cons_of_mem _ (List.mem_map_of_mem _ ha2)
    have hlen := hBDge _ hmem
    intro hempty
    rw [hempty] at hlen
    simp at hlen
    exact hane (String.ext (List.length_eq_zero.mp hlen))
  have hdescr : (merge_analyses (base :: rest)).description =
      py_max_by_len (base.description.getD "")
        (rest.map (fun a => a.description.getD "")) := by
    show (if py_max_by_len (base.description.getD "")
        (rest.map (fun a => a.description.getD "")) = "" then
        "No description available." else _) = _
    rw [if_neg hBDne]
  have hprice : (merge_analyses (base :: rest)).price =
      (if (base :: rest).filterMap (fun a => a.price) = [] then DEFAULT_PRICE
        else ((base :: rest).filterMap (fun a => a.price)).sum /
          (((base :: rest).filterMap (fun a => a.price)).length : ℚ)) := rfl
  have hcond : (merge_analyses (base :: rest)).condition =
      py_most_common "Good" ((base :: rest).map (fun a => a.condition.getD "Good")) :=
    rfl
  refine ⟨⟨?_, ?_⟩, ?_, ?_, ⟨?_, ?_⟩, ?_, ?_⟩
  · rw [hdescr]
    simpa using hBDmem
  · intro a ha
    rw [hdescr]
    apply hBDge
    rcases List.mem_cons.mp ha with rfl | ha2
    · exact List.mem_cons_self _ _
    · exact List.mem_cons_of_mem _ (List.mem_map_of_mem _ ha2)
  · intro hp
    rw [hprice, if_pos hp]
  · intro hp
    rw [hprice, if_neg hp]
  · rw [hcond]
    have := (py_most_common_spec "Good"
      ((base :: rest).map (fun a => a.condition.getD "Good")) (by simp)).1
    exact this
  · intro v
    rw [hcond]
    exact (py_most_common_spec "Good"
      ((base :: rest).map (fun a => a.condition.getD "Good")) (by simp)).2 v
  · decide
  · have : (merge_analyses [({ price := some 10 } : Analysis),
        ({ price := some 20 } : Analysis)]).price =
        ((10 : ℚ) + (20 + 0)) / ((2 : Nat) : ℚ) := rfl
    rw [this]
    norm_num

/-- C7 witness: the merged description of a concrete singleton batch is
that member's description. -/
theorem C7_witness :
    (merge_analyses [({ description := some "vintage oak chair" } :
        Analysis)]).description ∈
      ([({ description := some "vintage oak chair" } : Analysis)]).map
        (fun a => a.description.getD "") :=
  (C7_merge_rule [({ description := some "vintage oak chair" } : Analysis)]
    (by decide)
    ⟨_, List.mem_cons_self _ _, by decide⟩).1.1

/-! ### C9 -/

/-- The ordered pair list the nested loop of detect_similar_groups ranges
over: (keys[i], keys[j]) for all i < j, in loop order. -/
def sublist_pairs : List String → List (String × String)
  | [] => []
  | k :: rest => rest.map (fun k2 => (k, k2)) ++ sublist_pairs rest

lemma mem_sublist_pairs : ∀ (keys : List String) (p : String × String),
    p ∈ sublist_pairs keys → p.1 ∈ keys ∧ p.2 ∈ keys := by
  intro keys
  induction keys with
  | nil => intro p hp; cases hp
  | cons k rest ih =>
    intro p hp
    rcases List.mem_append.mp hp with hp | hp
    · rcases List.mem_map.mp hp with ⟨k2, hk2, rfl⟩
      exact ⟨List.mem_cons_self _ _, List.mem_cons_of_mem _ hk2⟩
    · rcases ih p hp with ⟨h1, h2⟩
      exact ⟨List.mem_cons_of_mem _ h1, List.mem_cons_of_mem _ h2⟩

lemma warn_row (k : String) (rest : List String) :
    rest.filterMap (fun k2 =>
      if DUPLICATE_SIMILARITY_THRESHOLD ≤ key_similarity k k2 then
        some (duplicate_warning k k2 (key_similarity k k2))
      else none) =
    ((rest.map (fun k2 => (k, k2))).filter (fun p =>
        decide (DUPLICATE_SIMILARITY_THRESHOLD ≤ key_similarity p.1 p.2))).map
      (fun p => duplicate_warning p.1 p.2 (key_similarity p.1 p.2)) := by
  induction rest with
  | nil => rfl
  | cons k2 ks ih =>
    by_cases hth : DUPLICATE_SIMILARITY_THRESHOLD ≤ key_similarity k k2
    · simp only [List.filterMap_cons, List.map_cons, List.filter_cons,
        if_pos hth, decide_eq_true_eq, hth, List.map_cons, ih]
      simp [hth]
    · simp only [List.filterMap_cons, List.map_cons, List.filter_cons,
        if_neg hth, ih]
      simp [hth]

lemma count_map_pair (k b : String) (rest : List String) :
    ((rest.map (fun k2 => (k, k2))).count (k, b)) = rest.count b := by
  induction rest with
  | nil => rfl
  | cons r rs ih =>
    simp only [List.map_cons, List.count_cons, ih, beq_iff_eq, Prod.mk.injEq,
      true_and]

lemma count_map_pair_ne (k a b : String) (rest : List String) (hka : k ≠ a) :
    ((rest.map (fun k2 => (k, k2))).count (a, b)) = 0 := by
  rw [List.count_eq_zero]
  intro hmem
  rcases List.mem_map.mp hmem with ⟨k2, _, heq⟩
  exact hka ((Prod.mk.injEq _ _ _ _).mp heq).1

lemma count_pairs_nil (keys : List String) (a b : String)
    (ha : a ∉ keys) : (sublist_pairs keys).count (a, b) = 0 := by
  rw [List.count_eq_zero]
  intro hmem
  exact ha (mem_sublist_pairs keys (a, b) hmem).1

lemma count_pairs_nil_right (keys : List String) (a b : String)
    (hb : b ∉ keys) : (sublist_pairs keys).count (a, b) = 0 := by
  rw [List.count_eq_zero]
  intro hmem
  exact hb (mem_sublist_pairs keys (a, b) hmem).2

lemma sublist_pairs_count (keys : List String) (hnd : keys.Nodup)
    (a b : String) (hab : a ≠ b) :
    (sublist_pairs keys).count (a, b) + (sublist_pairs keys).count (b, a) =
      if a ∈ keys ∧ b ∈ keys then 1 else 0 := by
  induction keys with
  | nil => simp [sublist_pairs]
  | cons k rest ih =>
    rcases List.nodup_cons.mp hnd with ⟨hk, hndr⟩
    show ((rest.map (fun k2 => (k, k2)) ++ sublist_pairs rest).count (a, b)) +
      ((rest.map (fun k2 => (k, k2)) ++ sublist_pairs rest).count (b, a)) = _
    rw [List.count_append, List.count_append]
    by_cases hka : k = a
    · subst hka
      have hkb : k ≠ b := hab
      rw [count_map_pair k b rest, count_map_pair_ne k b k rest hkb,
        count_pairs_nil rest k b hk, count_pairs_nil_right rest b k hk]
      by_cases hbr : b ∈ rest
      · rw [List.count_eq_one_of_mem hndr hbr,
          if_pos ⟨List.mem_cons_self _ _, List.mem_cons_of_mem _ hbr⟩]
      · rw [List.count_eq_zero_of_not_mem hbr, if_neg]
        rintro ⟨-, hmb⟩
        rcases List.mem_cons.mp hmb with h | h
        · exact hkb h.symm
        · exact hbr h
    · by_cases hkb : k = b
      · subst hkb
        rw [count_map_pair_ne k a k rest hka, count_map_pair k a rest,
          count_pairs_nil_right rest a k hk, count_pairs_nil rest k a hk]
        by_cases har : a ∈ rest
        · rw [List.count_eq_one_of_mem hndr har,
            if_pos ⟨List.mem_cons_of_mem _ har, List.mem_cons_self _ _⟩]
        · rw [List.count_eq_zero_of_not_mem har, if_neg]
          rintro ⟨hma, -⟩
          rcases List.mem_cons.mp hma with h | h
          · exact hka h.symm
          · exact har h
      · rw [count_map_pair_ne k a b rest hka, count_map_pair_ne k b a rest hkb]
        simp only [Nat.zero_add]
        rw [ih hndr]
        have hmema : (a ∈ k :: rest) ↔ (a ∈ rest) := by
          rw [List.mem_cons]
          exact ⟨fun h => h.resolve_left (fun h' => hka h'.symm), Or.inr⟩
        have hmemb : (b ∈ k :: rest) ↔ (b ∈ rest) := by
          rw [List.mem_cons]
          exact ⟨fun h => h.resolve_left (fun h' => hkb h'.symm), Or.inr⟩
        rw [if_congr (and_congr hmema hmemb) rfl rfl]

/-- C9: detect_similar_groups emits, in loop order, exactly the warning
string of each ordered pair (keys[i], keys[j]) with i < j whose key-token
Jaccard similarity is at or above the 0.6 threshold; and when the group
keys are distinct (as dictionary keys are), every unordered pair of
distinct keys occurs exactly once among the considered pairs.  The
function only reads the groups, so the embedding is a pure function of
them. -/
theorem C9_detect_similar_groups (groups : List (String × List Analysis))
    (hnd : (groups.map Prod.fst).Nodup) :
    detect_similar_groups groups =
      ((sublist_pairs (groups.map Prod.fst)).filter (fun p =>
          decide (DUPLICATE_SIMILARITY_THRESHOLD ≤ key_similarity p.1 p.2))).map
        (fun p => duplicate_warning p.1 p.2 (key_similarity p.1 p.2)) ∧
    ∀ a b : String, a ≠ b →
      (sublist_pairs (groups.map Prod.fst)).count (a, b) +
        (sublist_pairs (groups.map Prod.fst)).count (b, a) =
        if a ∈ groups.map Prod.fst ∧ b ∈ groups.map Prod.fst then 1 else 0 := by
  constructor
  · show pair_warnings (groups.map Prod.fst) = _
    generalize groups.map Prod.fst = keys
    induction keys with
    | nil => rfl
    | cons k rest ih =>
      show rest.filterMap _ ++ pair_warnings rest = _
      rw [ih]
      show _ = ((rest.map (fun k2 => (k, k2)) ++ sublist_pairs rest).filter _).map _
      rw [List.filter_append, List.map_append, warn_row]
  · intro a b hab
    exact sublist_pairs_count (groups.map Prod.fst) hnd a b hab

/-- C9 witness: the pair accounting at a concrete two-group mapping. -/
theorem C9_witness :
    detect_similar_groups [("blue_mug", []), ("mug_blue", [])] =
      ((sublist_pairs ["blue_mug", "mug_blue"]).filter (fun p =>
          decide (DUPLICATE_SIMILARITY_THRESHOLD ≤ key_similarity p.1 p.2))).map
        (fun p => duplicate_warning p.1 p.2 (key_similarity p.1 p.2)) ∧
    ∀ a b : String, a ≠ b →
      (sublist_pairs ["blue_mug", "mug_blue"]).count (a, b) +
        (sublist_pairs ["blue_mug", "mug_blue"]).count (b, a) =
        if a ∈ ["blue_mug", "mug_blue"] ∧ b ∈ ["blue_mug", "mug_blue"] then 1
        else 0 :=
  C9_detect_similar_groups [("blue_mug", []), ("mug_blue", [])] (by decide)

/-! ### C1 -/

lemma find_best_cases (ct ik : String) (l : List CatalogEntry) :
    ∀ (bE : Option CatalogEntry) (bS : ℚ),
    (find_best ct ik l (bE, bS) = (bE, bS) ∧
      ∀ e ∈ l, compute_similarity ct ik e.canonical_text e.item_key ≤ bS) ∨
    (∃ pre e post, l = pre ++ e :: post ∧
      find_best ct ik l (bE, bS) =
        (some e, compute_similarity ct ik e.canonical_text e.item_key) ∧
      bS < compute_similarity ct ik e.canonical_text e.item_key ∧
      (∀ e' ∈ pre, compute_similarity ct ik e'.canonical_text e'.item_key <
        compute_similarity ct ik e.canonical_text e.item_key) ∧
      (∀ e' ∈ post, compute_similarity ct ik e'.canonical_text e'.item_key ≤
        compute_similarity ct ik e.canonical_text e.item_key)) := by
  induction l with
  | nil => intro bE bS; exact Or.inl ⟨rfl, by intro e he; cases he⟩
  | cons e rest ih =>
    intro bE bS
    by_cases hlt : bS < compute_similarity ct ik e.canonical_text e.item_key
    · have hstep : find_best ct ik (e :: rest) (bE, bS) =
          find_best ct ik rest
            (some e, compute_similarity ct ik e.canonical_text e.item_key) := by
        show (if bS < compute_similarity ct ik e.canonical_text e.item_key
          then _ else _) = _
        rw [if_pos hlt]
      rcases ih (some e) (compute_similarity ct ik e.canonical_text e.item_key)
        with ⟨hres, hall⟩ | ⟨pre, e', post, heq, hres, hgt, hpre, hpost⟩
      · refine Or.inr ⟨[], e, rest, rfl, ?_, hlt, ?_, hall⟩
        · rw [hstep, hres]
        · intro x hx; cases hx
      · refine Or.inr ⟨e :: pre, e', post, by rw [heq, List.cons_append], ?_,
          lt_trans hlt hgt, ?_, hpost⟩
        · rw [hstep, hres]
        · intro x hx
          rcases List.mem_cons.mp hx with rfl | hx2
          · exact hgt
          · exact hpre x hx2
    · have hstep : find_best ct ik (e :: rest) (bE, bS) =
          find_best ct ik rest (bE, bS) := by
        show (if bS < compute_similarity ct ik e.canonical_text e.item_key
          then _ else _) = _
        rw [if_neg hlt]
      rcases ih bE bS
        with ⟨hres, hall⟩ | ⟨pre, e', post, heq, hres, hgt, hpre, hpost⟩
      · refine Or.inl ⟨by rw [hstep, hres], ?_⟩
        intro x hx
        rcases List.mem_cons.mp hx with rfl | hx2
        · exact le_of_not_lt hlt
        · exact hall x hx2
      · refine Or.inr ⟨e :: pre, e', post, by rw [heq, List.cons_append], ?_,
          hgt, ?_, hpost⟩
        · rw [hstep, hres]
        · intro x hx
          rcases List.mem_cons.mp hx with rfl | hx2
          · exact lt_of_le_of_lt (le_of_not_lt hlt) hgt
          · exact hpre x hx2

/-- The concrete catalog entry of the C1 counterexample. -/
def entry_b : CatalogEntry :=
  { item_key := "b", title := "t", canonical_text := "b", created_at := "d",
    updated_at := "d", representative_image_names := [] }

/-- The concrete catalog entry of the C1 witness. -/
def entry_a : CatalogEntry :=
  { item_key := "a", title := "t", canonical_text := "a", created_at := "d",
    updated_at := "d", representative_image_names := [] }

/-- C1 counterexample: with threshold 0 and a single entry at similarity
exactly 0, the entry is the argmax and its score meets the threshold
(0 is at least 0), yet find_match returns nothing, because the strict
improvement scan (score > best_score with best_score initialised to 0.0)
never selects an entry of score 0. -/
theorem C1_counterexample :
    compute_similarity "a" "a" entry_b.canonical_text entry_b.item_key = 0 ∧
    (0 : ℚ) ≤ 0 ∧
    find_match [entry_b] 0 "a" "a" = none := by
  have hra : ratio (py_lower "a").data (py_lower "b").data = 0 := by
    rw [ratio_eval _ _ 0 1 1 (by decide) (by decide) (by decide)]
    norm_num
  have hsim : compute_similarity "a" "a" entry_b.canonical_text entry_b.item_key = 0 := by
    show compute_similarity "a" "a" "b" "b" = 0
    rw [compute_similarity_formula, hra,
      show (py_token_set (py_lower "a") ∩ py_token_set (py_lower "b")).card = 0
        from by decide,
      show (py_token_set (py_lower "a") ∪ py_token_set (py_lower "b")).card = 2
        from by decide]
    norm_num
  refine ⟨hsim, le_refl 0, ?_⟩
  have hfb : find_best "a" "a" [entry_b] (none, 0) = (none, 0) := by
    show (if (0 : ℚ) < compute_similarity "a" "a"
        entry_b.canonical_text entry_b.item_key then _ else _) = _
    rw [hsim, if_neg (lt_irrefl 0)]
    rfl
  show (match find_best "a" "a" [entry_b] (none, 0) with
    | (some entry, score) => if (0:ℚ) ≤ score then some (entry, score) else none
    | (none, _) => none) = none
  rw [hfb]

/-- C1 amended: find_match scores every entry; when it returns an entry
it is the first entry (in insertion order) whose score strictly exceeds
every earlier score and is at least every later score, paired with that
score, and this happens exactly when the score is strictly positive and
at least the threshold; entries scoring 0 are never returned, even when
0 meets the threshold. -/
theorem C1_find_match_characterization (entries : List CatalogEntry)
    (th : ℚ) (ct ik : String) :
    (find_match entries th ct ik = none →
      ∀ e ∈ entries,
        compute_similarity ct ik e.canonical_text e.item_key < th ∨
        compute_similarity ct ik e.canonical_text e.item_key ≤ 0) ∧
    (∀ e s, find_match entries th ct ik = some (e, s) →
      s = compute_similarity ct ik e.canonical_text e.item_key ∧
      0 < s ∧ th ≤ s ∧
      (∀ e' ∈ entries,
        compute_similarity ct ik e'.canonical_text e'.item_key ≤ s) ∧
      ∃ pre post, entries = pre ++ e :: post ∧
        ∀ e' ∈ pre,
          compute_similarity ct ik e'.canonical_text e'.item_key < s) := by
  have hunfold : find_match entries th ct ik =
      (match find_best ct ik entries (none, 0) with
        | (some entry, score) =>
          if th ≤ score then some (entry, score) else none
        | (none, _) => none) := rfl
  rcases find_best_cases ct ik entries none 0
    with ⟨hres, hall⟩ | ⟨pre, e0, post, heq, hres, hgt, hpre, hpost⟩
  · constructor
    · intro _ e he
      exact Or.inr (hall e he)
    · intro e s hfm
      rw [hunfold, hres] at hfm
      cases hfm
  · have hfm : find_match entries th ct ik =
        if th ≤ compute_similarity ct ik e0.canonical_text e0.item_key then
          some (e0, compute_similarity ct ik e0.canonical_text e0.item_key)
        else none := by
      rw [hunfold, hres]
    by_cases hth : th ≤ compute_similarity ct ik e0.canonical_text e0.item_key
    · rw [if_pos hth] at hfm
      constructor
      · intro hnone
        rw [hfm] at hnone
        cases hnone
      · intro e s hsome
        rw [hfm] at hsome
        rcases Option.some.injEq _ _ |>.mp hsome with heq2
        have he : e = e0 := ((Prod.mk.injEq _ _ _ _).mp heq2 |>.1).symm
        have hs : s = compute_similarity ct ik e0.canonical_text e0.item_key :=
          ((Prod.mk.injEq _ _ _ _).mp heq2 |>.2).symm
        subst he
        refine ⟨hs, by rw [hs]; exact hgt, by rw [hs]; exact hth, ?_, ?_⟩
        · intro e' he'
          rw [hs, heq] at *
          rcases List.mem_append.mp he' with h | h
          · exact le_of_lt (hpre e' h)
          · rcases List.mem_cons.mp h with rfl | h2
            · exact le_refl _
            · exact hpost e' h2
        · refine ⟨pre, post, heq, ?_⟩
          intro e' he'
          rw [hs]
          exact hpre e' he'
    · rw [if_neg hth] at hfm
      constructor
      · intro _ e he
        left
        have hle : compute_similarity ct ik e.canonical_text e.item_key ≤
            compute_similarity ct ik e0.canonical_text e0.item_key := by
          rw [heq] at he
          rcases List.mem_append.mp he with h | h
          · exact le_of_lt (hpre e h)
          · rcases List.mem_cons.mp h with rfl | h2
            · exact le_refl _
            · exact hpost e h2
        exact lt_of_le_of_lt hle (lt_of_not_le hth)
      · intro e s hsome
        rw [hfm] at hsome
        cases hsome

/-- C1 witness: a one-entry catalog matched by an identical query at
threshold 0.8, retrieved with score 1. -/
theorem C1_witness :
    (1 : ℚ) = compute_similarity "a" "a" entry_a.canonical_text entry_a.item_key ∧
    0 < (1 : ℚ) ∧ (0.8 : ℚ) ≤ 1 ∧
    (∀ e' ∈ [entry_a],
      compute_similarity "a" "a" e'.canonical_text e'.item_key ≤ 1) ∧
    ∃ pre post, [entry_a] = pre ++ entry_a :: post ∧
      ∀ e' ∈ pre,
        compute_similarity "a" "a" e'.canonical_text e'.item_key < 1 := by
  have hsim : compute_similarity "a" "a" entry_a.canonical_text entry_a.item_key = 1 := by
    show compute_similarity "a" "a" "a" "a" = 1
    rw [compute_similarity_formula,
      show ratio (py_lower "a").data (py_lower "a").data = 1 from by
        rw [ratio_eval _ _ 1 1 1 (by decide) (by decide) (by decide)]; norm_num,
      show (py_token_set (py_lower "a") ∩ py_token_set (py_lower "a")).card = 1
        from by decide,
      show (py_token_set (py_lower "a") ∪ py_token_set (py_lower "a")).card = 1
        from by decide]
    norm_num
  have hfm : find_match [entry_a] 0.8 "a" "a" = some (entry_a, 1) := by
    have hfb : find_best "a" "a" [entry_a] (none, 0) = (some entry_a, 1) := by
      show (if (0 : ℚ) < compute_similarity "a" "a"
          entry_a.canonical_text entry_a.item_key then _ else _) = _
      rw [hsim, if_pos (by norm_num : (0:ℚ) < 1)]
      rfl
    show (match find_best "a" "a" [entry_a] (none, 0) with
      | (some entry, score) =>
        if (0.8 : ℚ) ≤ score then some (entry, score) else none
      | (none, _) => none) = _
    rw [hfb]
    show (if (0.8 : ℚ) ≤ (1 : ℚ) then some (entry_a, (1 : ℚ)) else none) = _
    rw [if_pos (by norm_num : (0.8 : ℚ) ≤ 1)]
  have h := (C1_find_match_characterization [entry_a] 0.8 "a" "a").2
    entry_a 1 hfm
  exact ⟨h.1, h.2.1, h.2.2.1, h.2.2.2.1, h.2.2.2.2⟩

/-! ### C2 -/

/-- The best block stays inside the search window: its start indices are
at least alo / blo and its end indices at most ahi / bhi. -/
def BestInv (alo ahi blo bhi : Nat) (best : Nat × Nat × Nat) : Prop :=
  alo ≤ best.1 ∧ blo ≤ best.2.1 ∧
  best.1 + best.2.2 ≤ ahi ∧ best.2.1 + best.2.2 ≤ bhi

lemma inner_loop_inv (blo bhi i alo ahi : Nat) (j2len : Nat → Nat)
    (hi : alo ≤ i) (hia : i < ahi)
    (hmap : ∀ j, j2len j ≠ 0 → j2len j + alo ≤ i ∧ j2len j + blo ≤ j + 1) :
    ∀ (js : List Nat) (newmap : Nat → Nat) (best : Nat × Nat × Nat),
    (∀ j, newmap j ≠ 0 → newmap j + alo ≤ i + 1 ∧ newmap j + blo ≤ j + 1) →
    BestInv alo ahi blo bhi best →
    (∀ j, (py_inner_loop blo bhi i j2len js newmap best).1 j ≠ 0 →
      (py_inner_loop blo bhi i j2len js newmap best).1 j + alo ≤ i + 1 ∧
      (py_inner_loop blo bhi i j2len js newmap best).1 j + blo ≤ j + 1) ∧
    BestInv alo ahi blo bhi (py_inner_loop blo bhi i j2len js newmap best).2 := by
  intro js
  induction js with
  | nil => intro newmap best hnew hbest; exact ⟨hnew, hbest⟩
  | cons j js ih =>
    intro newmap best hnew hbest
    by_cases hjlo : j < blo
    · have hstep : py_inner_loop blo bhi i j2len (j :: js) newmap best =
          py_inner_loop blo bhi i j2len js newmap best := by
        show (if j < blo then _ else _) = _
        rw [if_pos hjlo]
      rw [hstep]
      exact ih newmap best hnew hbest
    · by_cases hjhi : bhi ≤ j
      · have hstep : py_inner_loop blo bhi i j2len (j :: js) newmap best =
            (newmap, best) := by
          show (if j < blo then _ else _) = _
          rw [if_neg hjlo, if_pos hjhi]
        rw [hstep]
        exact ⟨hnew, hbest⟩
      · have hstep : py_inner_loop blo bhi i j2len (j :: js) newmap best =
            py_inner_loop blo bhi i j2len js
              (fun j' => if j' = j then py_run_len j2len j else newmap j')
              (if best.2.2 < py_run_len j2len j then
                (i + 1 - py_run_len j2len j, j + 1 - py_run_len j2len j,
                  py_run_len j2len j)
              else best) := by
          show (if j < blo then _ else _) = _
          rw [if_neg hjlo, if_neg hjhi]
        rw [hstep]
        have hblo_j : blo ≤ j := Nat.le_of_not_lt hjlo
        have hj_bhi : j < bhi := Nat.lt_of_not_le hjhi
        have hk : py_run_len j2len j + alo ≤ i + 1 ∧
            py_run_len j2len j + blo ≤ j + 1 := by
          unfold py_run_len
          by_cases hj0 : j = 0
          · subst hj0
            have hblo0 : blo = 0 := Nat.le_zero.mp hblo_j
            rw [if_pos rfl]
            omega
          · rw [if_neg hj0]
            by_cases hv : j2len (j - 1) = 0
            · rw [hv]; omega
            · have := hmap (j - 1) hv
              omega
        apply ih
        · intro j' hj'
          by_cases hjj : j' = j
          · subst hjj
            simp only [if_pos rfl]
            exact hk
          · simp only [if_neg hjj] at hj' ⊢
            exact hnew j' hj'
        · by_cases hupd : best.2.2 < py_run_len j2len j
          · rw [if_pos hupd]
            rcases hk with ⟨hk1, hk2⟩
            refine ⟨?_, ?_, ?_, ?_⟩
            · show alo ≤ i + 1 - py_run_len j2len j
              omega
            · show blo ≤ j + 1 - py_run_len j2len j
              omega
            · show i + 1 - py_run_len j2len j + py_run_len j2len j ≤ ahi
              omega
            · show j + 1 - py_run_len j2len j + py_run_len j2len j ≤ bhi
              omega
          · rw [if_neg hupd]
            exact hbest

lemma outer_loop_inv (b2j : Char → List Nat) (a : List Char)
    (blo bhi alo ahi : Nat) :
    ∀ (steps i : Nat) (j2len : Nat → Nat) (best : Nat × Nat × Nat),
    alo ≤ i → i + steps = ahi →
    (∀ j, j2len j ≠ 0 → j2len j + alo ≤ i ∧ j2len j + blo ≤ j + 1) →
    BestInv alo ahi blo bhi best →
    BestInv alo ahi blo bhi (py_outer_loop b2j a blo bhi i steps j2len best) := by
  intro steps
  induction steps with
  | zero => intro i j2len best _ _ _ hbest; exact hbest
  | succ steps ih =>
    intro i j2len best hi hsteps hmap hbest
    have hia : i < ahi := by omega
    show BestInv alo ahi blo bhi (py_outer_loop b2j a blo bhi (i + 1) steps
      (py_inner_loop blo bhi i j2len (b2j (a.getD i ' ')) (fun _ => 0) best).1
      (py_inner_loop blo bhi i j2len (b2j (a.getD i ' ')) (fun _ => 0) best).2)
    have hinner := inner_loop_inv blo bhi i alo ahi j2len hi hia hmap
      (b2j (a.getD i ' ')) (fun _ => 0) best (by intro j h; exact absurd rfl h)
      hbest
    exact ih (i + 1) _ _ (by omega) (by omega)
      (fun j hj => ⟨(hinner.1 j hj).1, (hinner.1 j hj).2⟩) hinner.2

lemma extend_back_inv (a b : List Char) (alo blo ahi bhi : Nat) :
    ∀ (fuel : Nat) (best : Nat × Nat × Nat), BestInv alo ahi blo bhi best →
    BestInv alo ahi blo bhi (py_extend_back a b alo blo fuel best) := by
  intro fuel
  induction fuel with
  | zero => intro best hbest; exact hbest
  | succ fuel ih =>
    rintro ⟨bi, bj, bs⟩ hbest
    have h1 : alo ≤ bi := hbest.1
    have h2 : blo ≤ bj := hbest.2.1
    have h3 : bi + bs ≤ ahi := hbest.2.2.1
    have h4 : bj + bs ≤ bhi := hbest.2.2.2
    show BestInv alo ahi blo bhi
      (if alo < bi ∧ blo < bj ∧ a.getD (bi - 1) ' ' = b.getD (bj - 1) ' ' then
        py_extend_back a b alo blo fuel (bi - 1, bj - 1, bs + 1)
      else (bi, bj, bs))
    by_cases hc : alo < bi ∧ blo < bj ∧ a.getD (bi - 1) ' ' = b.getD (bj - 1) ' '
    · rw [if_pos hc]
      apply ih
      rcases hc with ⟨hc1, hc2, -⟩
      exact ⟨show alo ≤ bi - 1 by omega, show blo ≤ bj - 1 by omega,
        show bi - 1 + (bs + 1) ≤ ahi by omega,
        show bj - 1 + (bs + 1) ≤ bhi by omega⟩
    · rw [if_neg hc]; exact hbest

lemma extend_fwd_inv (a b : List Char) (ahi bhi alo blo : Nat) :
    ∀ (fuel : Nat) (best : Nat × Nat × Nat), BestInv alo ahi blo bhi best →
    BestInv alo ahi blo bhi (py_extend_fwd a b ahi bhi fuel best) := by
  intro fuel
  induction fuel with
  | zero => intro best hbest; exact hbest
  | succ fuel ih =>
    rintro ⟨bi, bj, bs⟩ hbest
    have h1 : alo ≤ bi := hbest.1
    have h2 : blo ≤ bj := hbest.2.1
    show BestInv alo ahi blo bhi
      (if bi + bs < ahi ∧ bj + bs < bhi ∧
          a.getD (bi + bs) ' ' = b.getD (bj + bs) ' ' then
        py_extend_fwd a b ahi bhi fuel (bi, bj, bs + 1)
      else (bi, bj, bs))
    by_cases hc : bi + bs < ahi ∧ bj + bs < bhi ∧
        a.getD (bi + bs) ' ' = b.getD (bj + bs) ' '
    · rw [if_pos hc]
      apply ih
      rcases hc with ⟨hc1, hc2, -⟩
      exact ⟨h1, h2, show bi + (bs + 1) ≤ ahi by omega,
        show bj + (bs + 1) ≤ bhi by omega⟩
    · rw [if_neg hc]; exact hbest

lemma find_longest_match_inv (a b : List Char) (alo ahi blo bhi : Nat)
    (hab : alo ≤ ahi) (hbb : blo ≤ bhi) :
    BestInv alo ahi blo bhi (find_longest_match a b alo ahi blo bhi) := by
  unfold find_longest_match
  apply extend_fwd_inv
  apply extend_back_inv
  apply outer_loop_inv
  · exact le_refl alo
  · omega
  · intro j h; exact absurd rfl h
  · exact ⟨le_refl alo, le_refl blo, by simpa using hab, by simpa using hbb⟩

lemma matched_total_le (a b : List Char) :
    ∀ (fuel alo ahi blo bhi : Nat), alo ≤ ahi → blo ≤ bhi →
    matched_total a b fuel alo ahi blo bhi ≤ ahi - alo ∧
    matched_total a b fuel alo ahi blo bhi ≤ bhi - blo := by
  intro fuel
  induction fuel with
  | zero => intro alo ahi blo bhi _ _; exact ⟨Nat.zero_le _, Nat.zero_le _⟩
  | succ fuel ih =>
    intro alo ahi blo bhi hab hbb
    have hunfold : matched_total a b (fuel + 1) alo ahi blo bhi =
        if (find_longest_match a b alo ahi blo bhi).2.2 = 0 then 0
        else (find_longest_match a b alo ahi blo bhi).2.2 +
          (if alo < (find_longest_match a b alo ahi blo bhi).1 ∧
              blo < (find_longest_match a b alo ahi blo bhi).2.1 then
            matched_total a b fuel alo (find_longest_match a b alo ahi blo bhi).1
              blo (find_longest_match a b alo ahi blo bhi).2.1
          else 0) +
          (if (find_longest_match a b alo ahi blo bhi).1 +
                (find_longest_match a b alo ahi blo bhi).2.2 < ahi ∧
              (find_longest_match a b alo ahi blo bhi).2.1 +
                (find_longest_match a b alo ahi blo bhi).2.2 < bhi then
            matched_total a b fuel
              ((find_longest_match a b alo ahi blo bhi).1 +
                (find_longest_match a b alo ahi blo bhi).2.2) ahi
              ((find_longest_match a b alo ahi blo bhi).2.1 +
                (find_longest_match a b alo ahi blo bhi).2.2) bhi
          else 0) := rfl
    rw [hunfold]
    rcases find_longest_match_inv a b alo ahi blo bhi hab hbb with
      ⟨hi1, hj1, hi2, hj2⟩
    by_cases hk : (find_longest_match a b alo ahi blo bhi).2.2 = 0
    · rw [if_pos hk]
      exact ⟨Nat.zero_le _, Nat.zero_le _⟩
    · rw [if_neg hk]
      set m := find_longest_match a b alo ahi blo bhi with hm
      have hL : (if alo < m.1 ∧ blo < m.2.1 then
          matched_total a b fuel alo m.1 blo m.2.1 else 0) ≤ m.1 - alo ∧
          (if alo < m.1 ∧ blo < m.2.1 then
          matched_total a b fuel alo m.1 blo m.2.1 else 0) ≤ m.2.1 - blo := by
        by_cases hc : alo < m.1 ∧ blo < m.2.1
        · rw [if_pos hc]
          exact ih alo m.1 blo m.2.1 (le_of_lt hc.1) (le_of_lt hc.2)
        · rw [if_neg hc]
          exact ⟨Nat.zero_le _, Nat.zero_le _⟩
      have hR : (if m.1 + m.2.2 < ahi ∧ m.2.1 + m.2.2 < bhi then
          matched_total a b fuel (m.1 + m.2.2) ahi (m.2.1 + m.2.2) bhi else 0) ≤
            ahi - (m.1 + m.2.2) ∧
          (if m.1 + m.2.2 < ahi ∧ m.2.1 + m.2.2 < bhi then
          matched_total a b fuel (m.1 + m.2.2) ahi (m.2.1 + m.2.2) bhi else 0) ≤
            bhi - (m.2.1 + m.2.2) := by
        by_cases hc : m.1 + m.2.2 < ahi ∧ m.2.1 + m.2.2 < bhi
        · rw [if_pos hc]
          exact ih (m.1 + m.2.2) ahi (m.2.1 + m.2.2) bhi
            (le_of_lt hc.1) (le_of_lt hc.2)
        · rw [if_neg hc]
          exact ⟨Nat.zero_le _, Nat.zero_le _⟩
      omega

lemma ratio_mem_unit (a b : List Char) : 0 ≤ ratio a b ∧ ratio a b ≤ 1 := by
  unfold ratio
  by_cases hz : a.length + b.length = 0
  · rw [if_pos hz]
    norm_num
  · rw [if_neg hz]
    have hM := matched_total_le a b (a.length + b.length + 1)
      0 a.length 0 b.length (Nat.zero_le _) (Nat.zero_le _)
    have h2M : 2 * matched_total a b (a.length + b.length + 1)
        0 a.length 0 b.length ≤ a.length + b.length := by omega
    have hTpos : (0 : ℚ) < ((a.length + b.length : Nat) : ℚ) := by
      have : 0 < a.length + b.length := Nat.pos_of_ne_zero hz
      exact_mod_cast this
    constructor
    · apply div_nonneg
      · positivity
      · exact le_of_lt hTpos
    · rw [div_le_one hTpos]
      calc (2 * (matched_total a b (a.length + b.length + 1)
            0 a.length 0 b.length : ℚ)) =
          ((2 * matched_total a b (a.length + b.length + 1)
            0 a.length 0 b.length : Nat) : ℚ) := by push_cast; ring
        _ ≤ ((a.length + b.length : Nat) : ℚ) := by exact_mod_cast h2M

/-- C2: the similarity score is exactly the 0.60/0.20/0.20-weighted sum of
the lower-cased text sequence ratio, the lower-cased key sequence ratio
and the key-token Jaccard similarity, and it always lies in the unit
interval. -/
theorem C2_similarity_formula_and_bounds (text_a key_a text_b key_b : String) :
    compute_similarity text_a key_a text_b key_b =
      0.60 * ratio (py_lower text_a).data (py_lower text_b).data +
        0.20 * ratio (py_lower key_a).data (py_lower key_b).data +
        0.20 * (((py_token_set (py_lower key_a) ∩
            py_token_set (py_lower key_b)).card : ℚ) /
          ((py_token_set (py_lower key_a) ∪
            py_token_set (py_lower key_b)).card : ℚ)) ∧
    0 ≤ compute_similarity text_a key_a text_b key_b ∧
    compute_similarity text_a key_a text_b key_b ≤ 1 := by
  refine ⟨compute_similarity_formula text_a key_a text_b key_b, ?_, ?_⟩ <;>
  · rw [compute_similarity_formula]
    rcases ratio_mem_unit (py_lower text_a).data (py_lower text_b).data with
      ⟨ht0, ht1⟩
    rcases ratio_mem_unit (py_lower key_a).data (py_lower key_b).data with
      ⟨hk0, hk1⟩
    have hupos : 0 < ((py_token_set (py_lower key_a) ∪
        py_token_set (py_lower key_b)).card : ℚ) := by
      have : 0 < (py_token_set (py_lower key_a) ∪
          py_token_set (py_lower key_b)).card :=
        Finset.card_pos.mpr ((py_token_set_nonempty (py_lower key_a)).mono
          Finset.subset_union_left)
      exact_mod_cast this
    have hj0 : 0 ≤ (((py_token_set (py_lower key_a) ∩
        py_token_set (py_lower key_b)).card : ℚ) /
        ((py_token_set (py_lower key_a) ∪
          py_token_set (py_lower key_b)).card : ℚ)) := by
      apply div_nonneg
      · positivity
      · exact le_of_lt hupos
    have hj1 : (((py_token_set (py_lower key_a) ∩
        py_token_set (py_lower key_b)).card : ℚ) /
        ((py_token_set (py_lower key_a) ∪
          py_token_set (py_lower key_b)).card : ℚ)) ≤ 1 := by
      rw [div_le_one hupos]
      exact_mod_cast Finset.card_le_card
        (Finset.inter_subset_union)
    nlinarith [ht0, ht1, hk0, hk1, hj0, hj1]

/-! ### C5

Self-comparison yields ratio 1: the DP sweep only ever records a best
block on the diagonal (popular characters removed by autojunk may shorten
the recorded runs, but never move the best off the diagonal), and the two
extension loops then grow a diagonal block across the entire string. -/

/-- The character at position j survives into b2j (it is not removed by
autojunk, and occurs in the string). -/
def kept (s : List Char) (j : Nat) : Prop := py_b2j s (s.getD j ' ') ≠ []

instance kept_decidable (s : List Char) (j : Nat) : Decidable (kept s j) :=
  inferInstanceAs (Decidable (py_b2j s (s.getD j ' ') ≠ []))

/-- Length of the maximal run of kept positions ending at j: the value
the DP row holds on the diagonal when comparing s with itself. -/
def drun (s : List Char) : Nat → Nat
  | 0 => if kept s 0 then 1 else 0
  | j + 1 => if kept s (j + 1) then drun s j + 1 else 0

/-- drun at the row before i (0 when no row was processed yet). -/
def dprev (s : List Char) : Nat → Nat
  | 0 => 0
  | i + 1 => drun s i

lemma mem_py_positions {s : List Char} {c : Char} {j : Nat}
    (h : j ∈ py_positions s c) : j < s.length ∧ s.getD j ' ' = c := by
  unfold py_positions at h
  rcases List.mem_filter.mp h with ⟨hr, hc⟩
  exact ⟨List.mem_range.mp hr, by simpa using hc⟩

lemma self_mem_py_positions {s : List Char} {i : Nat} (h : i < s.length) :
    i ∈ py_positions s (s.getD i ' ') := by
  unfold py_positions
  exact List.mem_filter.mpr ⟨List.mem_range.mpr h, by simp⟩

lemma py_b2j_eq_or (s : List Char) (c : Char) :
    py_b2j s c = py_positions s c ∨ py_b2j s c = [] := by
  unfold py_b2j
  by_cases h : 200 ≤ s.length ∧ s.length / 100 + 1 < s.count c
  · rw [if_pos h]; exact Or.inr rfl
  · rw [if_neg h]; exact Or.inl rfl

lemma py_b2j_sorted (s : List Char) (c : Char) :
    (py_b2j s c).Pairwise (· < ·) := by
  rcases py_b2j_eq_or s c with h | h <;> rw [h]
  · exact (List.pairwise_lt_range s.length).filter _
  · exact List.Pairwise.nil

lemma mem_py_b2j {s : List Char} {i j : Nat}
    (hjs : j ∈ py_b2j s (s.getD i ' ')) :
    j < s.length ∧ s.getD j ' ' = s.getD i ' ' := by
  rcases py_b2j_eq_or s (s.getD i ' ') with h | h
  · rw [h] at hjs
    exact mem_py_positions hjs
  · rw [h] at hjs
    cases hjs

lemma kept_of_mem_py_b2j {s : List Char} {i j : Nat}
    (hjs : j ∈ py_b2j s (s.getD i ' ')) : kept s j := by
  rcases mem_py_b2j hjs with ⟨_, hc⟩
  unfold kept
  rw [hc]
  intro hnil
  rw [hnil] at hjs
  cases hjs

lemma self_mem_py_b2j {s : List Char} {i : Nat} (hi : i < s.length)
    (hkept : kept s i) : i ∈ py_b2j s (s.getD i ' ') := by
  rcases py_b2j_eq_or s (s.getD i ' ') with h | h
  · rw [h]
    exact self_mem_py_positions hi
  · exact absurd h hkept

lemma sorted_split {l : List Nat} (hp : l.Pairwise (· < ·)) {i : Nat}
    (hi : i ∈ l) :
    ∃ l1 l2, l = l1 ++ i :: l2 ∧ (∀ x ∈ l1, x < i) ∧ (∀ x ∈ l2, i < x) := by
  rcases List.append_of_mem hi with ⟨l1, l2, rfl⟩
  rw [List.pairwise_append] at hp
  rcases hp with ⟨_, hp2, hp3⟩
  refine ⟨l1, l2, rfl, ?_, ?_⟩
  · intro x hx
    exact hp3 x hx i (List.mem_cons_self _ _)
  · intro x hx
    exact (List.pairwise_cons.mp hp2).1 x hx

lemma run_len_le_drun (s : List Char) (j2len : Nat → Nat)
    (hB : ∀ j, j2len j ≠ 0 → j2len j ≤ drun s j) (j : Nat) (hkept : kept s j) :
    py_run_len j2len j ≤ drun s j := by
  unfold py_run_len
  cases j with
  | zero =>
    rw [if_pos rfl]
    show 0 + 1 ≤ drun s 0
    unfold drun
    rw [if_pos hkept]
  | succ j' =>
    rw [if_neg (Nat.succ_ne_zero j')]
    show j2len (j' + 1 - 1) + 1 ≤ drun s (j' + 1)
    unfold drun
    rw [if_pos hkept]
    simp only [Nat.add_sub_cancel]
    by_cases hv : j2len j' = 0
    · rw [hv]; omega
    · have := hB j' hv
      omega

lemma run_len_le_of_dprev (s : List Char) (i : Nat) (j2len : Nat → Nat)
    (hA : ∀ j, j2len j ≤ dprev s i) (hkept : kept s i) (j : Nat) :
    py_run_len j2len j ≤ drun s i := by
  unfold py_run_len
  have hbound : (if j = 0 then 0 else j2len (j - 1)) ≤ dprev s i := by
    by_cases hj : j = 0
    · rw [if_pos hj]; exact Nat.zero_le _
    · rw [if_neg hj]; exact hA _
  cases i with
  | zero =>
    show _ + 1 ≤ drun s 0
    unfold drun
    rw [if_pos hkept]
    have : (if j = 0 then 0 else j2len (j - 1)) ≤ 0 := hbound
    omega
  | succ i' =>
    show _ + 1 ≤ drun s (i' + 1)
    unfold drun
    rw [if_pos hkept]
    have : (if j = 0 then 0 else j2len (j - 1)) ≤ drun s i' := hbound
    omega

lemma run_len_diag (s : List Char) (i : Nat) (j2len : Nat → Nat)
    (hC : match i with | 0 => True | i' + 1 => j2len i' = drun s i')
    (hkept : kept s i) :
    py_run_len j2len i = drun s i := by
  unfold py_run_len
  cases i with
  | zero =>
    rw [if_pos rfl]
    show 0 + 1 = drun s 0
    unfold drun
    rw [if_pos hkept]
  | succ i' =>
    rw [if_neg (Nat.succ_ne_zero i')]
    show j2len (i' + 1 - 1) + 1 = drun s (i' + 1)
    unfold drun
    rw [if_pos hkept]
    simp only [Nat.add_sub_cancel]
    rw [hC]

lemma inner_append (blo bhi i : Nat) (j2len : Nat → Nat) :
    ∀ (l1 l2 : List Nat) (newmap : Nat → Nat) (best : Nat × Nat × Nat),
    (∀ j ∈ l1, j < bhi) →
    py_inner_loop blo bhi i j2len (l1 ++ l2) newmap best =
      py_inner_loop blo bhi i j2len l2
        (py_inner_loop blo bhi i j2len l1 newmap best).1
        (py_inner_loop blo bhi i j2len l1 newmap best).2 := by
  intro l1
  induction l1 with
  | nil => intro l2 newmap best _; rfl
  | cons j js ih =>
    intro l2 newmap best hlt
    have hj : j < bhi := hlt j (List.mem_cons_self _ _)
    have hrest : ∀ x ∈ js, x < bhi :=
      fun x hx => hlt x (List.mem_cons_of_mem _ hx)
    by_cases hjlo : j < blo
    · have h1 : py_inner_loop blo bhi i j2len ((j :: js) ++ l2) newmap best =
          py_inner_loop blo bhi i j2len (js ++ l2) newmap best := by
        show (if j < blo then _ else _) = _
        rw [if_pos hjlo]
        rfl
      have h2 : py_inner_loop blo bhi i j2len (j :: js) newmap best =
          py_inner_loop blo bhi i j2len js newmap best := by
        show (if j < blo then _ else _) = _
        rw [if_pos hjlo]
      rw [h1, h2, ih l2 newmap best hrest]
    · have h1 : py_inner_loop blo bhi i j2len ((j :: js) ++ l2) newmap best =
          py_inner_loop blo bhi i j2len (js ++ l2)
            (fun j' => if j' = j then py_run_len j2len j else newmap j')
            (if best.2.2 < py_run_len j2len j then
              (i + 1 - py_run_len j2len j, j + 1 - py_run_len j2len j,
                py_run_len j2len j)
            else best) := by
        show (if j < blo then _ else _) = _
        rw [if_neg hjlo, if_neg (Nat.not_le_of_lt hj)]
        rfl
      have h2 : py_inner_loop blo bhi i j2len (j :: js) newmap best =
          py_inner_loop blo bhi i j2len js
            (fun j' => if j' = j then py_run_len j2len j else newmap j')
            (if best.2.2 < py_run_len j2len j then
              (i + 1 - py_run_len j2len j, j + 1 - py_run_len j2len j,
                py_run_len j2len j)
            else best) := by
        show (if j < blo then _ else _) = _
        rw [if_neg hjlo, if_neg (Nat.not_le_of_lt hj)]
      rw [h1, h2, ih l2 _ _ hrest]

lemma inner_self_no_update (n i : Nat) (j2len : Nat → Nat) :
    ∀ (js : List Nat) (newmap : Nat → Nat) (best : Nat × Nat × Nat),
    (∀ j ∈ js, j < n) →
    (∀ j ∈ js, py_run_len j2len j ≤ best.2.2) →
    py_inner_loop 0 n i j2len js newmap best =
      (fun j' => if j' ∈ js then py_run_len j2len j' else newmap j', best) := by
  intro js
  induction js with
  | nil =>
    intro newmap best _ _
    show (newmap, best) = _
    refine Prod.ext ?_ rfl
    funext j'
    simp
  | cons j js ih =>
    intro newmap best hlt hle
    have hj : j < n := hlt j (List.mem_cons_self _ _)
    have hstep : py_inner_loop 0 n i j2len (j :: js) newmap best =
        py_inner_loop 0 n i j2len js
          (fun j' => if j' = j then py_run_len j2len j else newmap j') best := by
      show (if j < 0 then _ else _) = _
      rw [if_neg (Nat.not_lt_zero j), if_neg (Nat.not_le_of_lt hj)]
      dsimp only
      rw [if_neg (Nat.not_lt.mpr (hle j (List.mem_cons_self _ _)))]
    rw [hstep,
      ih _ best (fun x hx => hlt x (List.mem_cons_of_mem _ hx))
        (fun x hx => hle x (List.mem_cons_of_mem _ hx))]
    refine Prod.ext ?_ rfl
    funext j'
    by_cases hmem : j' ∈ js
    · simp only [if_pos hmem, if_pos (List.mem_cons_of_mem _ hmem)]
    · simp only [if_neg hmem]
      by_cases hjj : j' = j
      · subst hjj
        simp [if_pos rfl]
      · have : j' ∉ j :: js := by
          intro hc
          rcases List.mem_cons.mp hc with h | h
          · exact hjj h
          · exact hmem h
        simp only [if_neg this, if_neg hjj]

lemma drun_le (s : List Char) : ∀ i : Nat, drun s i ≤ i + 1 := by
  intro i
  induction i with
  | zero =>
    unfold drun
    by_cases h : kept s 0
    · rw [if_pos h]
    · rw [if_neg h]; omega
  | succ i' ih =>
    unfold drun
    by_cases h : kept s (i' + 1)
    · rw [if_pos h]; omega
    · rw [if_neg h]; omega

lemma drun_of_not_kept (s : List Char) (i : Nat) (h : ¬ kept s i) :
    drun s i = 0 := by
  cases i with
  | zero => unfold drun; rw [if_neg h]
  | succ i' => unfold drun; rw [if_neg h]

lemma outer_self (s : List Char) (n : Nat) (hn : n = s.length) :
    ∀ (steps i : Nat) (j2len : Nat → Nat) (best : Nat × Nat × Nat),
    i + steps = n →
    (∀ j, j2len j ≤ dprev s i) →
    (∀ j, j2len j ≠ 0 → j2len j ≤ drun s j) →
    (match i with | 0 => True | i' + 1 => j2len i' = drun s i') →
    best.1 = best.2.1 →
    best.1 + best.2.2 ≤ n →
    (∀ i' < i, drun s i' ≤ best.2.2) →
    (py_outer_loop (py_b2j s) s 0 n i steps j2len best).1 =
      (py_outer_loop (py_b2j s) s 0 n i steps j2len best).2.1 ∧
    (py_outer_loop (py_b2j s) s 0 n i steps j2len best).1 +
      (py_outer_loop (py_b2j s) s 0 n i steps j2len best).2.2 ≤ n := by
  intro steps
  induction steps with
  | zero =>
    intro i j2len best _ _ _ _ hdiag hsum _
    exact ⟨hdiag, hsum⟩
  | succ steps ih =>
    intro i j2len best hsteps hA hB hC hdiag hsum hD
    have hi : i < n := by omega
    have hstep : py_outer_loop (py_b2j s) s 0 n i (steps + 1) j2len best =
        py_outer_loop (py_b2j s) s 0 n (i + 1) steps
          (py_inner_loop 0 n i j2len (py_b2j s (s.getD i ' '))
            (fun _ => 0) best).1
          (py_inner_loop 0 n i j2len (py_b2j s (s.getD i ' '))
            (fun _ => 0) best).2 := rfl
    rw [hstep]
    by_cases hkept : kept s i
    · -- split the position list around the diagonal index i
      have hmem : i ∈ py_b2j s (s.getD i ' ') :=
        self_mem_py_b2j (hn ▸ hi) hkept
      rcases sorted_split (py_b2j_sorted s (s.getD i ' ')) hmem with
        ⟨P1, P2, hsplit, hP1, hP2⟩
      have hP1n : ∀ j ∈ P1, j < n := by
        intro j hj
        have : j ∈ py_b2j s (s.getD i ' ') := by
          rw [hsplit]; exact List.mem_append_left _ hj
        rcases mem_py_b2j this with ⟨h1, _⟩
        omega
      have hP2n : ∀ j ∈ P2, j < n := by
        intro j hj
        have : j ∈ py_b2j s (s.getD i ' ') := by
          rw [hsplit]
          exact List.mem_append_right _ (List.mem_cons_of_mem _ hj)
        rcases mem_py_b2j this with ⟨h1, _⟩
        omega
      have hP1kept : ∀ j ∈ P1, kept s j := by
        intro j hj
        apply kept_of_mem_py_b2j (i := i)
        rw [hsplit]; exact List.mem_append_left _ hj
      have hP2kept : ∀ j ∈ P2, kept s j := by
        intro j hj
        apply kept_of_mem_py_b2j (i := i)
        rw [hsplit]
        exact List.mem_append_right _ (List.mem_cons_of_mem _ hj)
      -- stage 1: positions left of the diagonal never improve the best
      have hstage1 : py_inner_loop 0 n i j2len P1 (fun _ => 0) best =
          (fun j' => if j' ∈ P1 then py_run_len j2len j' else 0, best) := by
        apply inner_self_no_update n i j2len P1 (fun _ => 0) best hP1n
        intro j hj
        calc py_run_len j2len j ≤ drun s j :=
              run_len_le_drun s j2len hB j (hP1kept j hj)
          _ ≤ best.2.2 := hD j (hP1 j hj)
      -- the diagonal step
      have hkii : py_run_len j2len i = drun s i := run_len_diag s i j2len hC hkept
      have hstage2src : py_inner_loop 0 n i j2len (i :: P2)
          (fun j' => if j' ∈ P1 then py_run_len j2len j' else 0) best =
          py_inner_loop 0 n i j2len P2
            (fun j' => if j' = i then py_run_len j2len i
              else if j' ∈ P1 then py_run_len j2len j' else 0)
            (if best.2.2 < py_run_len j2len i then
              (i + 1 - py_run_len j2len i, i + 1 - py_run_len j2len i,
                py_run_len j2len i)
            else best) := by
        show (if i < 0 then _ else _) = _
        rw [if_neg (Nat.not_lt_zero i), if_neg (Nat.not_le_of_lt hi)]
      set best' := (if best.2.2 < py_run_len j2len i then
          (i + 1 - py_run_len j2len i, i + 1 - py_run_len j2len i,
            py_run_len j2len i)
        else best) with hbest'
      have hbs' : drun s i ≤ best'.2.2 ∧ best.2.2 ≤ best'.2.2 ∧
          best'.1 = best'.2.1 ∧ best'.1 + best'.2.2 ≤ n := by
        rw [hbest']
        by_cases hupd : best.2.2 < py_run_len j2len i
        · rw [if_pos hupd]
          have hkle : drun s i ≤ i + 1 := drun_le s i
          refine ⟨?_, ?_, ?_, ?_⟩
          · show drun s i ≤ py_run_len j2len i
            rw [hkii]
          · show best.2.2 ≤ py_run_len j2len i
            omega
          · rfl
          · show i + 1 - py_run_len j2len i + py_run_len j2len i ≤ n
            rw [hkii]
            omega
        · rw [if_neg hupd]
          rw [hkii] at hupd
          exact ⟨Nat.le_of_not_lt hupd, le_refl _, hdiag, hsum⟩
      -- stage 2: positions right of the diagonal cannot improve any more
      have hstage2 : py_inner_loop 0 n i j2len P2
          (fun j' => if j' = i then py_run_len j2len i
            else if j' ∈ P1 then py_run_len j2len j' else 0) best' =
          (fun j' => if j' ∈ P2 then py_run_len j2len j'
            else if j' = i then py_run_len j2len i
            else if j' ∈ P1 then py_run_len j2len j' else 0, best') := by
        apply inner_self_no_update n i j2len P2 _ best' hP2n
        intro j hj
        calc py_run_len j2len j ≤ drun s i :=
              run_len_le_of_dprev s i j2len hA hkept j
          _ ≤ best'.2.2 := hbs'.1
      have hr : py_inner_loop 0 n i j2len (py_b2j s (s.getD i ' '))
          (fun _ => 0) best =
          (fun j' => if j' ∈ P2 then py_run_len j2len j'
            else if j' = i then py_run_len j2len i
            else if j' ∈ P1 then py_run_len j2len j' else 0, best') := by
        rw [hsplit, inner_append 0 n i j2len P1 (i :: P2) _ _ hP1n, hstage1]
        rw [hstage2src, hstage2]
      rw [hr]
      apply ih (i + 1)
      · omega
      · -- new row values are bounded by drun at the current row
        intro j
        show (if j ∈ P2 then py_run_len j2len j
          else if j = i then py_run_len j2len i
          else if j ∈ P1 then py_run_len j2len j else 0) ≤ dprev s (i + 1)
        show _ ≤ drun s i
        by_cases h2 : j ∈ P2
        · rw [if_pos h2]
          exact run_len_le_of_dprev s i j2len hA hkept j
        · rw [if_neg h2]
          by_cases hji : j = i
          · rw [if_pos hji]
            exact run_len_le_of_dprev s i j2len hA hkept i
          · rw [if_neg hji]
            by_cases h1 : j ∈ P1
            · rw [if_pos h1]
              exact run_len_le_of_dprev s i j2len hA hkept j
            · rw [if_neg h1]
              exact Nat.zero_le _
      · -- new row values are bounded by drun at their own column
        intro j hne
        show (if j ∈ P2 then py_run_len j2len j
          else if j = i then py_run_len j2len i
          else if j ∈ P1 then py_run_len j2len j else 0) ≤ drun s j
        by_cases h2 : j ∈ P2
        · rw [if_pos h2]
          exact run_len_le_drun s j2len hB j (hP2kept j h2)
        · rw [if_neg h2]
          by_cases hji : j = i
          · subst hji
            rw [if_pos rfl, hkii]
          · rw [if_neg hji]
            by_cases h1 : j ∈ P1
            · rw [if_pos h1]
              exact run_len_le_drun s j2len hB j (hP1kept j h1)
            · rw [if_neg h1]
              exact Nat.zero_le _
      · -- the diagonal entry of the new row is exact
        show (if i ∈ P2 then py_run_len j2len i
          else if i = i then py_run_len j2len i
          else if i ∈ P1 then py_run_len j2len i else 0) = drun s i
        have hiP2 : i ∉ P2 := fun h => absurd (hP2 i h) (lt_irrefl i)
        rw [if_neg hiP2, if_pos rfl, hkii]
      · exact hbs'.2.2.1
      · exact hbs'.2.2.2
      · intro i' hi'
        by_cases hii : i' = i
        · subst hii
          exact hbs'.1
        · exact le_trans (hD i' (by omega)) hbs'.2.1
    · -- the character at i was removed by autojunk: empty position list
      have hjs : py_b2j s (s.getD i ' ') = [] := not_not.mp hkept
      have hr : py_inner_loop 0 n i j2len (py_b2j s (s.getD i ' '))
          (fun _ => 0) best = ((fun _ => 0), best) := by
        rw [hjs]
        rfl
      rw [hr]
      apply ih (i + 1)
      · omega
      · intro j
        exact Nat.zero_le _
      · intro j h
        exact absurd rfl h
      · show (0 : Nat) = drun s i
        exact (drun_of_not_kept s i hkept).symm
      · exact hdiag
      · exact hsum
      · intro i' hi'
        by_cases hii : i' = i
        · subst hii
          rw [drun_of_not_kept s i' hkept]
          exact Nat.zero_le _
        · exact hD i' (by omega)

lemma extend_back_self (s : List Char) :
    ∀ (fuel bi bs : Nat), bi ≤ fuel →
    py_extend_back s s 0 0 fuel (bi, bi, bs) = (0, 0, bi + bs) := by
  intro fuel
  induction fuel with
  | zero =>
    intro bi bs hle
    have hbi : bi = 0 := Nat.le_zero.mp hle
    subst hbi
    rw [Nat.zero_add]
    rfl
  | succ fuel ih =>
    intro bi bs hle
    show (if 0 < bi ∧ 0 < bi ∧ s.getD (bi - 1) ' ' = s.getD (bi - 1) ' ' then
      py_extend_back s s 0 0 fuel (bi - 1, bi - 1, bs + 1) else (bi, bi, bs)) = _
    by_cases hbi : 0 < bi
    · rw [if_pos ⟨hbi, hbi, rfl⟩, ih (bi - 1) (bs + 1) (by omega)]
      have : bi - 1 + (bs + 1) = bi + bs := by omega
      rw [this]
    · have hbi0 : bi = 0 := by omega
      subst hbi0
      rw [if_neg (by rintro ⟨hc, -⟩; omega), Nat.zero_add]

lemma extend_fwd_self (s : List Char) (n : Nat) :
    ∀ (fuel t : Nat), n ≤ t + fuel → t ≤ n →
    py_extend_fwd s s n n fuel (0, 0, t) = (0, 0, n) := by
  intro fuel
  induction fuel with
  | zero =>
    intro t h1 h2
    have ht : t = n := by omega
    subst ht
    rfl
  | succ fuel ih =>
    intro t h1 h2
    show (if 0 + t < n ∧ 0 + t < n ∧ s.getD (0 + t) ' ' = s.getD (0 + t) ' ' then
      py_extend_fwd s s n n fuel (0, 0, t + 1) else (0, 0, t)) = _
    by_cases ht : t < n
    · rw [if_pos ⟨by omega, by omega, rfl⟩]
      exact ih (t + 1) (by omega) (by omega)
    · have htn : t = n := by omega
      subst htn
      rw [if_neg (by rintro ⟨hc, -⟩; omega)]

lemma flm_self_aux (s : List Char) (n : Nat) (R : Nat × Nat × Nat)
    (hdiag : R.1 = R.2.1) (hsum : R.1 + R.2.2 ≤ n) :
    py_extend_fwd s s n n (n + n) (py_extend_back s s 0 0 R.1 R) = (0, 0, n) := by
  obtain ⟨bi, R2⟩ := R
  obtain ⟨bj, bs⟩ := R2
  have hbj : bi = bj := hdiag
  subst hbj
  have hsum' : bi + bs ≤ n := hsum
  show py_extend_fwd s s n n (n + n) (py_extend_back s s 0 0 bi (bi, bi, bs)) = _
  rw [extend_back_self s bi bi bs (le_refl bi)]
  exact extend_fwd_self s n (n + n) (bi + bs) (by omega) hsum'

lemma find_longest_match_self (s : List Char) :
    find_longest_match s s 0 s.length 0 s.length = (0, 0, s.length) := by
  have hdp := outer_self s s.length rfl (s.length - 0) 0 (fun _ => 0) (0, 0, 0)
    (by omega) (fun j => Nat.zero_le _) (fun j h => absurd rfl h) trivial rfl
    (by show 0 + 0 ≤ s.length; omega) (fun i' h => absurd h (Nat.not_lt_zero i'))
  exact flm_self_aux s s.length _ hdp.1 hdp.2

/-- SequenceMatcher(None, s, s).ratio() is exactly 1 for every string:
the best block the DP records on self-comparison is always diagonal, and
the extension loops then cover the whole string, even when autojunk has
removed popular characters from b2j. -/
lemma ratio_self (s : List Char) : ratio s s = 1 := by
  by_cases hz : s.length = 0
  · unfold ratio
    rw [if_pos (by omega)]
  · unfold ratio
    rw [if_neg (by omega)]
    have hm : matched_total s s (s.length + s.length + 1)
        0 s.length 0 s.length = s.length := by
      have hunfold : matched_total s s (s.length + s.length + 1)
          0 s.length 0 s.length =
          if (find_longest_match s s 0 s.length 0 s.length).2.2 = 0 then 0
          else (find_longest_match s s 0 s.length 0 s.length).2.2 +
            (if 0 < (find_longest_match s s 0 s.length 0 s.length).1 ∧
                0 < (find_longest_match s s 0 s.length 0 s.length).2.1 then
              matched_total s s (s.length + s.length) 0
                (find_longest_match s s 0 s.length 0 s.length).1 0
                (find_longest_match s s 0 s.length 0 s.length).2.1
            else 0) +
            (if (find_longest_match s s 0 s.length 0 s.length).1 +
                  (find_longest_match s s 0 s.length 0 s.length).2.2 < s.length ∧
                (find_longest_match s s 0 s.length 0 s.length).2.1 +
                  (find_longest_match s s 0 s.length 0 s.length).2.2 < s.length then
              matched_total s s (s.length + s.length)
                ((find_longest_match s s 0 s.length 0 s.length).1 +
                  (find_longest_match s s 0 s.length 0 s.length).2.2) s.length
                ((find_longest_match s s 0 s.length 0 s.length).2.1 +
                  (find_longest_match s s 0 s.length 0 s.length).2.2) s.length
            else 0) := rfl
      rw [hunfold, find_longest_match_self s]
      dsimp only
      rw [if_neg hz, if_neg (by rintro ⟨hc, -⟩; omega),
        if_neg (by rintro ⟨hc, -⟩; omega)]
      omega
    rw [hm]
    have hden : ((s.length + s.length : Nat) : ℚ) ≠ 0 := by
      have h : s.length + s.length ≠ 0 := by omega
      exact_mod_cast h
    rw [div_eq_one_iff_eq hden]
    push_cast
    ring

/-- The score of any text/key pair against itself is exactly 1. -/
lemma compute_similarity_self (t k : String) :
    compute_similarity t k t k = 1 := by
  rw [compute_similarity_formula, ratio_self, ratio_self]
  have hj : ((py_token_set (py_lower k) ∩
      py_token_set (py_lower k)).card : ℚ) /
      ((py_token_set (py_lower k) ∪
        py_token_set (py_lower k)).card : ℚ) = 1 := by
    rw [Finset.inter_self, Finset.union_self]
    apply div_self
    have hpos : 0 < (py_token_set (py_lower k)).card :=
      Finset.card_pos.mpr (py_token_set_nonempty _)
    have hne : (py_token_set (py_lower k)).card ≠ 0 := by omega
    exact_mod_cast hne
  rw [hj]
  norm_num

/-- C5: two items with identical canonical_text and identical item_key
score exactly 1.0: both sequence ratios are 1 on identical inputs and the
token Jaccard of a key with itself is 1 (the token set is never empty), so
the weighted sum is 0.60 + 0.20 + 0.20. -/
theorem C5_identical_items_score_one (A B : CatalogEntry)
    (htext : A.canonical_text = B.canonical_text)
    (hkey : A.item_key = B.item_key) :
    compute_similarity A.canonical_text A.item_key
      B.canonical_text B.item_key = 1 := by
  rw [← htext, ← hkey]
  exact compute_similarity_self A.canonical_text A.item_key

/-- C5 witness: two concrete entries sharing canonical text and key score
exactly 1. -/
theorem C5_witness :
    compute_similarity "blue mug nice blue mug" "blue_mug"
      "blue mug nice blue mug" "blue_mug" = 1 :=
  C5_identical_items_score_one
    { item_key := "blue_mug", title := "t",
      canonical_text := "blue mug nice blue mug", created_at := "d",
      updated_at := "d", representative_image_names := [] }
    { item_key := "blue_mug", title := "u",
      canonical_text := "blue mug nice blue mug", created_at := "e",
      updated_at := "e", representative_image_names := ["x.jpg"] }
    rfl rfl


/-! ### The rerun scenario: the second run takes the match path -/

lemma c6_score : compute_similarity c6_ct "blue_mug" c6_entry1.canonical_text
    c6_entry1.item_key = 1 := by
  have h1 : c6_entry1.canonical_text = c6_ct := by decide
  have h2 : c6_entry1.item_key = "blue_mug" := by decide
  rw [h1, h2]
  exact compute_similarity_self c6_ct "blue_mug"

lemma c6_find_best : find_best c6_ct "blue_mug" [c6_entry1]
    (none, 0) = (some c6_entry1, 1) := by
  show (if ((none : Option CatalogEntry), (0 : ℚ)).2 <
      compute_similarity c6_ct "blue_mug" c6_entry1.canonical_text
        c6_entry1.item_key then
    find_best c6_ct "blue_mug" [] (some c6_entry1,
      compute_similarity c6_ct "blue_mug" c6_entry1.canonical_text
        c6_entry1.item_key)
    else find_best c6_ct "blue_mug" [] (none, 0)) = (some c6_entry1, 1)
  rw [c6_score]
  rw [if_pos (by norm_num : ((none : Option CatalogEntry), (0 : ℚ)).2 < 1)]
  rfl

/-- The catalog entry written by the first run matches the identical
second-run group with score exactly 1, clearing the 0.80 threshold. -/
lemma c6_find_match : find_match [c6_entry1] 0.8 c6_ct "blue_mug" =
    some (c6_entry1, 1) := by
  unfold find_match
  rw [c6_find_best]
  show (if (0.8 : ℚ) ≤ 1 then some (c6_entry1, 1) else none) = _
  rw [if_pos (by norm_num : (0.8 : ℚ) ≤ 1)]

/-- The second run on the same batch lands in the match path and changes
the state: a renamed image copy and a dated update note are added. -/
lemma c6_run2 : organize_and_list 0.8 "2026-01-02" "t2" ["in/img1.jpg"]
    c6_state1 [c6_analysis] = c6_state2 := by
  unfold organize_and_list
  rw [(by decide : group_analyses_by_item [c6_analysis] =
    [("blue_mug", [c6_analysis])])]
  rw [List.foldl_cons, List.foldl_nil]
  simp only [process_group]
  rw [(by decide : build_canonical_text "blue_mug" [c6_analysis] = c6_ct)]
  have he : c6_state1.entries = [c6_entry1] := by decide
  rw [he, c6_find_match]
  decide

/-- C6 counterexample: running the grouping+merge pass twice on the same
one-image batch, with the catalog persisted between runs.  The first run
produces c6_state1, whose item folder holds the listing.txt sentinel; yet
the second run changes the state, because the catalog entry written by the
first run matches the group with score 1 at or above the 0.80 threshold,
so the group takes the match path - which never consults the sentinel -
copies the image again under a renamed file and writes a dated update
note, instead of being skipped. -/
theorem C6_counterexample :
    organize_and_list 0.8 "2026-01-01" "t1" ["in/img1.jpg"]
      { folders := [], entries := [] } [c6_analysis] = c6_state1 ∧
    (lookup_folder c6_state1.folders
      (make_folder_name "blue_mug")).map is_already_processed = some true ∧
    organize_and_list 0.8 "2026-01-02" "t2" ["in/img1.jpg"]
      c6_state1 [c6_analysis] ≠ c6_state1 := by
  refine ⟨by decide, by decide, ?_⟩
  rw [c6_run2]
  decide

/-- C6 (amended): the skip rule itself is correct for the path that
consults it: on the NO-MATCH path, when a folder named for the group's
exact item_key exists and holds the finalized listing file, the group is
skipped and the state is returned unchanged - no folder is created, no
file is written, no catalog entry is added.  The claim's rerun consequence
does not follow, because a second run on the same batch reaches the
catalog match path first (the entry persisted by the first run scores 1.0,
at or above the threshold) and that path copies renamed image duplicates
and writes a dated update note without ever consulting the sentinel. -/
theorem C6_no_match_skip (now : String) (src_exists : List String)
    (st : OrgState) (item_key : String) (item_analyses : List Analysis)
    (canonical_text : String) (image_names : List String) (f : Folder)
    (hf : lookup_folder st.folders (make_folder_name item_key) = some f)
    (hp : is_already_processed f = true) :
    no_match_path now src_exists st item_key item_analyses
      canonical_text image_names = st := by
  simp only [no_match_path, hf, hp, if_true]

/-- C6 witness: the skip theorem applied to the concrete first-run state,
whose blue_mug folder holds the sentinel. -/
theorem C6_witness :
    no_match_path "t2" ["in/img1.jpg"] c6_state1 "blue_mug" [c6_analysis]
      c6_ct ["img1.jpg"] = c6_state1 :=
  C6_no_match_skip "t2" ["in/img1.jpg"] c6_state1 "blue_mug" [c6_analysis]
    c6_ct ["img1.jpg"]
    { name := "blue_mug", files := ["img1.jpg", "listing.txt"] }
    (by decide) (by decide)
